import Mathlib

/-!
# Verification of the `deinflect` core engine

Shallow embedding of `src/lib.rs` (crate `deinflect`): the rule-suffix trie
(`Tree`/`Node`), the worklist candidate expander (`Deinflections::from_word`),
the backward streaming reconstruction (`Deinflections::chars_rev`), and the
sentence scanner (`Deinflections::from_str`).

Strings are modelled as `List Char`; the `u8`/`u64` bitflag masks (`Rules`,
`Reasons`) are modelled as `Nat` with bitwise `&&&`/`|||` (no arithmetic is
ever performed on them, so no wrap-around is reachable). Rust panics
(out-of-bounds indexing) are modelled as `Option.none` at the API surface.

The authored rule table (`rules.rs`, the `INFLECTION_RULES` constant) is
configuration data, not part of the core: every definition here is
parameterised over the lookup tree that `LOOKUP_TREE` would build from it.
-/

namespace Deinflect

/-- `Rules` bitmask (`u8` in the source); only `is_empty`, `intersects` and
assignment are used, so `Nat` is a faithful model. -/
abbrev Rules := Nat

/-- `Reasons` bitmask (`u64` in the source); only `|` and `is_empty` are
used, so `Nat` is a faithful model. -/
abbrev Reasons := Nat

/-- `RuleInfo` from `src/lib.rs`: one inflection rule. -/
structure RuleInfo where
  kana_in : List Char
  kana_out : List Char
  rules_in : Rules
  rules_out : Rules
deriving DecidableEq

/-- `Info` from `src/lib.rs`: the payload stored in the lookup tree for one
rule, with the character counts precomputed at tree-build time. -/
structure Info where
  reason : Reasons
  rule : RuleInfo
  kana_in_chars : Nat
  kana_out_chars : Nat
deriving DecidableEq

/-- `DeinflectionSource` from `src/lib.rs`. -/
inductive DeinflectionSource where
  | original
  | deinflection (i : Nat)
deriving DecidableEq

/-- `DeinflectionData` from `src/lib.rs`: one candidate in the forest. -/
structure DeinflectionData where
  source : DeinflectionSource
  replace_from_back : Nat
  replace_with : List Char
  replace_with_chars : Nat
  rules : Rules
  reasons : Reasons
deriving DecidableEq

/-- `Deinflections` from `src/lib.rs`: the original word together with the
append-only candidate list. -/
structure Deinflections where
  source : List Char
  deinflections : List DeinflectionData
deriving DecidableEq

/-! ## The lookup tree (`Tree` / `Node` in `src/lib.rs`) -/

/-- `Node<K, T>` from `src/lib.rs`. -/
inductive Node (K T : Type) where
  | mk (c : K) (children : List (Node K T)) (matches_ : List T)

/-- The node's key (field `c`). -/
def Node.c {K T : Type} : Node K T → K
  | .mk c _ _ => c

/-- The node's ordered child vector (field `children`). -/
def Node.children {K T : Type} : Node K T → List (Node K T)
  | .mk _ ch _ => ch

/-- The rules recorded at this node (field `matches`). -/
def Node.matches_ {K T : Type} : Node K T → List T
  | .mk _ _ m => m

variable {K T : Type}

/-- Rust's `slice::binary_search_by_key` specialised to comparing a key list
against `c` (as `Node::get_child_index` uses it): `left`/`right` delimit the
live range, the probe is `left + (right - left) / 2`.  The first `Nat` is
the loop variant — the Rust loop's `size = right - left`, which shrinks by
at least one per iteration, made an explicit structural argument so the
function stays kernel-computable; the `0` arm is unreachable whenever it
starts at `right - left`.  `Except.ok i` means found at `i`;
`Except.error i` means not found, sorted insert possible at `i`. -/
def binSearch [LinearOrder K] (keys : List K) (c : K) :
    Nat → Nat → Nat → Except Nat Nat
  | 0, left, _ => Except.error left
  | size + 1, left, right =>
    if left < right then
      match keys[left + (right - left) / 2]? with
      | none => Except.error left
      | some k =>
        if k < c then binSearch keys c size (left + (right - left) / 2 + 1) right
        else if c < k then binSearch keys c size left (left + (right - left) / 2)
        else Except.ok (left + (right - left) / 2)
    else Except.error left

/-- `Node::get_child_index` from `src/lib.rs`: binary search over the child
vector keyed by each child's `c` (variant initialised to the range size). -/
def Node.get_child_index [LinearOrder K] (n : Node K T) (c : K) : Except Nat Nat :=
  binSearch (n.children.map Node.c) c n.children.length 0 n.children.length

/-- `Node::insert` from `src/lib.rs`: walk the key sequence, creating missing
children (kept sorted via the binary-search insertion point), and record the
payload at the final node. -/
def Node.insert [LinearOrder K] (n : Node K T) (ks : List K) (t : T) : Node K T :=
  match ks with
  | [] => .mk n.c n.children (n.matches_ ++ [t])
  | k :: ks' =>
    match n.get_child_index k with
    | .ok i =>
      match n.children[i]? with
      | some ch => .mk n.c (n.children.set i (ch.insert ks' t)) n.matches_
      | none => n
    | .error i =>
      .mk n.c
        ((n.children.insertIdx i (Node.mk k [] [])).set i
          ((Node.mk k ([] : List (Node K T)) ([] : List T)).insert ks' t))
        n.matches_

/-- `Node::get_submatches` from `src/lib.rs`, with the lazy iterator
materialised over a (finite) character source: emit this node's `matches`,
then consume one key and descend into the matching child if any. -/
def Node.get_submatches [LinearOrder K] (n : Node K T) (ks : List K) : List T :=
  match ks with
  | [] => n.matches_
  | k :: ks' =>
    n.matches_ ++
      match n.get_child_index k with
      | .ok i =>
        match n.children[i]? with
        | some ch => ch.get_submatches ks'
        | none => []
      | .error _ => []

/-- `Tree::new` from `src/lib.rs`: a root node with the default key. -/
def treeNew [Inhabited K] : Node K T := .mk default [] []

/-- The `LOOKUP_TREE` builder from `src/lib.rs`, parameterised by the rule
table: fold `insert` over a list of (reversed-suffix path, payload) pairs. -/
def buildTree [LinearOrder K] [Inhabited K] (rules : List (List K × T)) : Node K T :=
  rules.foldl (fun n pt => n.insert pt.1 pt.2) treeNew

/-! ## Backward reconstruction (`Deinflections::chars_rev`) -/

/-- The loop body of `Deinflections::chars_rev` from `src/lib.rs`, unrolled
per layer.  Entering a layer with `skip` pending characters to drop from its
reversed `replace_with`, it emits the surviving fragment, computes the
carry-over (`saturating_sub`, i.e. `Nat` subtraction) and either finishes on
the original word or recurses into the parent layer.  `fuel` bounds the
number of parent hops; `none` models the Rust panics / divergence that an
index outside the list (or a non-decreasing parent chain) would cause. -/
def charsRevAux (word : List Char) (ds : List DeinflectionData) :
    Nat → DeinflectionData → Nat → Option (List Char)
  | fuel, data, skip =>
    let emitted := data.replace_with.reverse.drop skip
    let carry := skip - data.replace_with_chars
    let replace := data.replace_from_back + carry
    match data.source with
    | .original => some (emitted ++ word.reverse.drop replace)
    | .deinflection j =>
      match fuel with
      | 0 => none
      | fuel' + 1 =>
        match ds[j]? with
        | none => none
        | some parent =>
          (charsRevAux word ds fuel' parent replace).map (emitted ++ ·)

/-- `Deinflections::chars_rev` from `src/lib.rs`: the candidate's text as a
backward character sequence.  `none` models the panic on an invalid handle. -/
def Deinflections.chars_rev (d : Deinflections) (i : Nat) : Option (List Char) :=
  match d.deinflections[i]? with
  | none => none
  | some data => charsRevAux d.source d.deinflections i data 0

/-- `Deinflections::to_string` from `src/lib.rs`: collect `chars_rev` and
reverse it. -/
def Deinflections.to_string (d : Deinflections) (i : Nat) : Option (List Char) :=
  (d.chars_rev i).map List.reverse

/-- `Deinflections::data` from `src/lib.rs`; `none` models the panic on an
invalid handle. -/
def Deinflections.data (d : Deinflections) (i : Nat) : Option DeinflectionData :=
  d.deinflections[i]?

/-! ## The candidate expander (`Deinflections::from_word`) -/

/-- The root candidate `from_word` seeds the forest with. -/
def initData : DeinflectionData :=
  { source := .original, replace_from_back := 0, replace_with := [],
    replace_with_chars := 0, rules := 0, reasons := 0 }

/-- One accepted-rule check and child construction from the body of the
`for` loop in `Deinflections::from_word`: the class-compatibility gate
(`prev.rules.is_empty() || prev.rules.intersects(rule.rules_in)`) and the
new candidate's fields. -/
def ruleStep (prev : DeinflectionData) (i : Nat) (info : Info) :
    Option DeinflectionData :=
  if prev.rules = 0 ∨ prev.rules &&& info.rule.rules_in ≠ 0 then
    some { source := .deinflection i,
           replace_from_back := info.kana_in_chars,
           replace_with := info.rule.kana_out,
           replace_with_chars := info.kana_out_chars,
           rules := info.rule.rules_out,
           reasons := prev.reasons ||| info.reason }
  else none

/-- One iteration of the worklist loop in `Deinflections::from_word`: query
the tree with candidate `i`'s backward character stream and keep the
class-compatible children, in submatch order. -/
def expandOne (tree : Node Char Info) (word : List Char)
    (ds : List DeinflectionData) (i : Nat) : List DeinflectionData :=
  match ds[i]? with
  | none => []
  | some prev =>
    (tree.get_submatches ((Deinflections.chars_rev ⟨word, ds⟩ i).getD [])).filterMap
      (ruleStep prev i)

/-- The worklist loop of `Deinflections::from_word` (`while i < len`),
fuelled: each step appends candidate `i`'s children and advances `i`.
Returns the final list together with the loop counter. -/
def fromWordAux (tree : Node Char Info) (word : List Char) :
    Nat → List DeinflectionData → Nat → List DeinflectionData × Nat
  | 0, ds, i => (ds, i)
  | fuel + 1, ds, i =>
    if i < ds.length then
      fromWordAux tree word fuel (ds ++ expandOne tree word ds i) (i + 1)
    else (ds, i)

/-- `Deinflections::from_word` from `src/lib.rs`, parameterised by the lookup
tree and by the loop fuel (the Rust loop runs unboundedly; every claim below
is stated for all fuels or for a sufficiently large one). -/
def fromWord (tree : Node Char Info) (fuel : Nat) (word : List Char) :
    Deinflections :=
  ⟨word, (fromWordAux tree word fuel [initData] 0).1⟩

/-- `Deinflections::from_str` from `src/lib.rs`: one forest per reversed
character of `s`, the `k`-th built from `s` with its last `k` characters
removed (the byte-offset `scan` in the source walks exactly the char
boundaries of the tail). -/
def fromStr (tree : Node Char Info) (fuel : Nat) (s : List Char) :
    List Deinflections :=
  (List.range s.length).map (fun k => fromWord tree fuel (s.take (s.length - k)))

/-! ## Invariants and specification predicates -/

/-- The child key vector that `Node::get_child_index` searches over. -/
def childKeys (n : Node K T) : List K := n.children.map Node.c

/-- The sortedness invariant of C10, at every node of the tree: the
children vector is sorted in strictly ascending key order (hence free of
duplicate keys). -/
inductive WFNode [LinearOrder K] : Node K T → Prop
  | mk (c : K) (children : List (Node K T)) (ms : List T)
      (hsort : List.Pairwise (fun a b : Node K T => a.c < b.c) children)
      (hch : ∀ ch ∈ children, WFNode ch) :
      WFNode (.mk c children ms)

/-- The child-descent step shared by `get_submatches`, specified
functionally: the child found by the binary search, if any. -/
def childLookup [LinearOrder K] (n : Node K T) (k : K) : Option (Node K T) :=
  match n.get_child_index k with
  | .ok i => n.children[i]?
  | .error _ => none

/-- The node reached from `n` by walking the key path, via the same binary
search the source uses. -/
def nodeAt [LinearOrder K] (n : Node K T) : List K → Option (Node K T)
  | [] => some n
  | k :: ks =>
    match childLookup n k with
    | some ch => nodeAt ch ks
    | none => none

/-- The matches recorded at the node reached by `p` (empty if absent). -/
def matchesAt [LinearOrder K] (n : Node K T) (p : List K) : List T :=
  ((nodeAt n p).map Node.matches_).getD []

/-- Payload membership anywhere in a tree. -/
inductive InTree (x : T) : Node K T → Prop
  | here {n : Node K T} : x ∈ n.matches_ → InTree x n
  | child {n ch : Node K T} : ch ∈ n.children → InTree x ch → InTree x n

/-! ## C1: reconstruction unit cases over `"abc"` -/

/-- The original word of the spec's reconstruction unit cases. -/
def w_abc : List Char := ['a', 'b', 'c']

/-- A forest with one hand-built candidate replacing `k` trailing characters
of `"abc"` with `"de"` (the spec's single-layer unit cases). -/
def singleLayer (k : Nat) : Deinflections :=
  ⟨w_abc, [⟨.original, k, ['d', 'e'], 2, 0, 0⟩]⟩

/-- The spec's three-layer chain over `"abc"`: layer1 replaces 1 char with
`"de"`, layer2 (child of layer1) replaces 1 char with `"fg"`, layer3 (child
of layer2) replaces 3 chars with `"h"`. -/
def chainForest : Deinflections :=
  ⟨w_abc,
    [⟨.original, 1, ['d', 'e'], 2, 0, 0⟩,
     ⟨.deinflection 0, 1, ['f', 'g'], 2, 0, 0⟩,
     ⟨.deinflection 1, 3, ['h'], 1, 0, 0⟩]⟩

/-- A one-rule table for concrete checks: the rule replaces the suffix
`"c"` by `"x"`, has empty `rules_in` (accepts any candidate), sets
`rules_out` bit 2 and reason bit 1. -/
def info0 : Info := ⟨1, ⟨['c'], ['x'], 0, 2⟩, 1, 1⟩

/-- The lookup tree holding exactly `info0` under the path `['c']`. -/
def tree0 : Node Char Info := Node.mk 'A' [Node.mk 'c' [] [info0]] []

/-- A net-consuming rule for C7's concrete check: it replaces the
two-character suffix `"bc"` by `"x"`. -/
def infoC7 : Info := ⟨1, ⟨['b', 'c'], ['x'], 0, 2⟩, 2, 1⟩

/-- The one-entry rule table for C7's concrete check: `infoC7` keyed by its
reversed suffix `"cb"`, exactly as `LOOKUP_TREE` feeds entries to
`insert`. -/
def tableC7 : List (List Char × Info) := [(['c', 'b'], infoC7)]

/-! ## Definitions for the termination argument (C7) -/

/-- Depth consistency of the lookup tree: every rule stored at depth `d`
records `kana_in_chars = d` — which holds of `LOOKUP_TREE` because each rule
is inserted under the path `kana_in.chars().rev()` with
`kana_in_chars = kana_in.chars().count()`. -/
inductive DepthInv : Node Char Info → Nat → Prop
  | mk (c : Char) (children : List (Node Char Info)) (ms : List Info) (d : Nat)
      (hms : ∀ info ∈ ms, info.kana_in_chars = d)
      (hch : ∀ ch ∈ children, DepthInv ch (d + 1)) :
      DepthInv (.mk c children ms) d

/-- Total number of payloads stored in a tree (bounds how many rules one
`get_submatches` call can yield). -/
def totalInfos : Node K T → Nat
  | .mk _ children ms =>
    ms.length + (children.attach.map (fun x => totalInfos x.1)).sum
decreasing_by
  have h := List.sizeOf_lt_of_mem x.2
  simp only [Node.mk.sizeOf_spec]
  omega

/-- Number of parent hops from candidate `j` to the original word, fuelled
by the index (parent indices strictly decrease in well-formed forests). -/
def chainDepthAux (ds : List DeinflectionData) : Nat → Nat → Nat
  | 0, _ => 0
  | fuel + 1, j =>
    match ds[j]? with
    | none => 0
    | some dd =>
      match dd.source with
      | .original => 0
      | .deinflection p => chainDepthAux ds fuel p + 1

/-- The chaining depth of candidate `j`. -/
def chainDepth (ds : List DeinflectionData) (j : Nat) : Nat :=
  chainDepthAux ds j j

/-- The reconstructed character length of candidate `j`. -/
def candLen (word : List Char) (ds : List DeinflectionData) (j : Nat) : Nat :=
  ((Deinflections.chars_rev ⟨word, ds⟩ j).getD []).length

/-- Structural well-formedness of a forest state: stored character counts
match the stored texts, and parent links strictly decrease (both hold of
every state `from_word` reaches when the table's counts are accurate). -/
def WFForest (ds : List DeinflectionData) : Prop :=
  ∀ (j : Nat) (dd : DeinflectionData), ds[j]? = some dd →
    dd.replace_with_chars = dd.replace_with.length ∧
    (∀ p, dd.source = .deinflection p → p < j)

/-- The termination potential of a worklist state: one exponential token
per unprocessed candidate, graded by its reconstructed length (`B` bounds
how many children one candidate can spawn). -/
def potential (B : Nat) (word : List Char) (ds : List DeinflectionData)
    (i : Nat) : Nat :=
  ((List.range' i (ds.length - i)).map
    (fun j => (B + 1) ^ candLen word ds j)).sum

/-! ## Basic lemmas -/

@[simp] theorem Node.c_mk (c : K) (ch : List (Node K T)) (m : List T) :
    (Node.mk c ch m).c = c := rfl

@[simp] theorem Node.children_mk (c : K) (ch : List (Node K T)) (m : List T) :
    (Node.mk c ch m).children = ch := rfl

@[simp] theorem Node.matches_mk (c : K) (ch : List (Node K T)) (m : List T) :
    (Node.mk c ch m).matches_ = m := rfl

theorem WFNode.sorted [LinearOrder K] {n : Node K T} (h : WFNode n) :
    List.Pairwise (fun a b : Node K T => a.c < b.c) n.children := by
  cases h; simpa

theorem WFNode.child [LinearOrder K] {n : Node K T} (h : WFNode n)
    {ch : Node K T} (hm : ch ∈ n.children) : WFNode ch := by
  cases h with
  | mk c children ms hsort hch => exact hch ch (by simpa using hm)

/-! ## Binary-search correctness (`Node::get_child_index`) -/

/-- Full functional specification of the embedded
`slice::binary_search_by_key` on a strictly sorted key list, by strong
induction on the live range: `ok i` finds the key, `error i` is the sorted
insertion point with everything below it strictly smaller and everything
at or above it strictly greater. -/
theorem binSearch_spec [LinearOrder K] (keys : List K) (c : K)
    (hs : ∀ (i j : Nat) (_ : i < keys.length) (_ : j < keys.length),
      i < j → keys[i] < keys[j]) :
    ∀ size left right, right - left ≤ size → left ≤ right →
      right ≤ keys.length →
      (∀ (j : Nat) (_ : j < keys.length), j < left → keys[j] < c) →
      (∀ (j : Nat) (_ : j < keys.length), right ≤ j → c < keys[j]) →
      (∀ i, binSearch keys c size left right = .ok i →
        ∃ h : i < keys.length, keys[i] = c) ∧
      (∀ i, binSearch keys c size left right = .error i → i ≤ keys.length ∧
        (∀ (j : Nat) (_ : j < keys.length), j < i → keys[j] < c) ∧
        (∀ (j : Nat) (_ : j < keys.length), i ≤ j → c < keys[j])) := by
  intro size
  induction size with
  | zero =>
    intro left right hm hlr hrl hlo hhi
    constructor
    · intro i hres
      cases hres
    · intro i hres
      cases hres
      exact ⟨by omega, hlo, fun j hj hjge => hhi j hj (by omega)⟩
  | succ size ih =>
    intro left right hm hlr hrl hlo hhi
    by_cases hlt : left < right
    · have hmidlt : left + (right - left) / 2 < right := by
        have := Nat.div_lt_self (show 0 < right - left by omega)
          (show 1 < 2 by norm_num)
        omega
      cases hk : keys[left + (right - left) / 2]? with
      | none =>
        rw [List.getElem?_eq_none_iff] at hk
        omega
      | some k =>
        have hrw : binSearch keys c (size + 1) left right =
            (if k < c then
              binSearch keys c size (left + (right - left) / 2 + 1) right
             else if c < k then
              binSearch keys c size left (left + (right - left) / 2)
             else Except.ok (left + (right - left) / 2)) := by
          rw [binSearch, if_pos hlt, hk]
        obtain ⟨hmlt, hkeq⟩ := List.getElem?_eq_some.mp hk
        by_cases hklt : k < c
        · rw [hrw, if_pos hklt]
          refine ih (left + (right - left) / 2 + 1) right (by omega)
            (by omega) hrl ?_ hhi
          intro j hj hjlt
          rcases Nat.lt_or_ge j (left + (right - left) / 2) with hlt' | hge
          · exact lt_trans (hs j _ hj hmlt hlt') (hkeq ▸ hklt)
          · have hj' : j = left + (right - left) / 2 := by omega
            subst hj'; exact hkeq ▸ hklt
        · by_cases hkgt : c < k
          · rw [hrw, if_neg hklt, if_pos hkgt]
            refine ih left (left + (right - left) / 2) (by omega)
              (by omega) (by omega) hlo ?_
            intro j hj hjge
            rcases Nat.lt_or_ge (left + (right - left) / 2) j with hlt' | hge
            · exact lt_trans (hkeq ▸ hkgt) (hs _ j hmlt hj hlt')
            · have hj' : j = left + (right - left) / 2 := by omega
              subst hj'; exact hkeq ▸ hkgt
          · rw [hrw, if_neg hklt, if_neg hkgt]
            constructor
            · intro i hres
              cases hres
              exact ⟨hmlt, hkeq ▸ le_antisymm (not_lt.mp hkgt) (not_lt.mp hklt)⟩
            · intro i hres
              cases hres
    · have hrw : binSearch keys c (size + 1) left right = Except.error left := by
        rw [binSearch, if_neg hlt]
      rw [hrw]
      constructor
      · intro i hres
        cases hres
      · intro i hres
        cases hres
        exact ⟨by omega, hlo, fun j hj hjge => hhi j hj (by omega)⟩

/-- On a well-formed node, a successful `get_child_index` returns the index
of the (unique) child carrying the searched key. -/
theorem get_child_index_ok [LinearOrder K] {n : Node K T} (hwf : WFNode n)
    {c : K} {i : Nat} (h : n.get_child_index c = .ok i) :
    ∃ ch, n.children[i]? = some ch ∧ ch.c = c := by
  have hs : ∀ (a b : Nat) (_ : a < (childKeys n).length)
      (_ : b < (childKeys n).length), a < b → (childKeys n)[a] < (childKeys n)[b] :=
    List.pairwise_iff_getElem.mp (by
      simpa [childKeys, List.pairwise_map] using hwf.sorted)
  have hspec := binSearch_spec (childKeys n) c hs n.children.length 0
    n.children.length (by omega) (by omega) (by simp [childKeys]) (by omega)
    (by intro j hj hjge; simp [childKeys] at hj; omega)
  rw [Node.get_child_index] at h
  obtain ⟨hi, hkey⟩ := hspec.1 i h
  simp only [childKeys, List.length_map] at hi
  refine ⟨n.children[i], List.getElem?_eq_some.mpr ⟨hi, rfl⟩, ?_⟩
  simpa [childKeys] using hkey

/-- On a well-formed node, a failed `get_child_index` returns the sorted
insertion point: no child carries the key, all children strictly below the
point have smaller keys and all at or above it have greater keys. -/
theorem get_child_index_error [LinearOrder K] {n : Node K T} (hwf : WFNode n)
    {c : K} {i : Nat} (h : n.get_child_index c = .error i) :
    i ≤ n.children.length ∧
    (∀ (j : Nat) (_ : j < n.children.length), j < i → n.children[j].c < c) ∧
    (∀ (j : Nat) (_ : j < n.children.length), i ≤ j → c < n.children[j].c) := by
  have hs : ∀ (a b : Nat) (_ : a < (childKeys n).length)
      (_ : b < (childKeys n).length), a < b → (childKeys n)[a] < (childKeys n)[b] :=
    List.pairwise_iff_getElem.mp (by
      simpa [childKeys, List.pairwise_map] using hwf.sorted)
  have hspec := binSearch_spec (childKeys n) c hs n.children.length 0
    n.children.length (by omega) (by omega) (by simp [childKeys]) (by omega)
    (by intro j hj hjge; simp [childKeys] at hj; omega)
  rw [Node.get_child_index] at h
  obtain ⟨hle, hbelow, habove⟩ := hspec.2 i h
  simp only [childKeys, List.length_map] at hle
  refine ⟨hle, ?_, ?_⟩
  · intro j hj hjlt
    have := hbelow j (by simpa [childKeys]) hjlt
    simpa [childKeys] using this
  · intro j hj hjge
    have := habove j (by simpa [childKeys]) hjge
    simpa [childKeys] using this

/-- On a well-formed node, no child carries the key when the binary search
fails. -/
theorem get_child_index_error_not_mem [LinearOrder K] {n : Node K T}
    (hwf : WFNode n) {c : K} {i : Nat} (h : n.get_child_index c = .error i) :
    ∀ ch ∈ n.children, ch.c ≠ c := by
  obtain ⟨-, hbelow, habove⟩ := get_child_index_error hwf h
  intro ch hch hkey
  obtain ⟨j, hj, rfl⟩ := List.mem_iff_getElem.mp hch
  rcases Nat.lt_or_ge j i with hlt | hge
  · exact absurd hkey (ne_of_lt (hbelow j hj hlt))
  · exact absurd hkey.symm (ne_of_lt (habove j hj hge))

/-- In a strictly key-sorted child list, `find?` by key returns exactly the
member carrying that key. -/
theorem find?_keyed_eq_some [LinearOrder K] {l : List (Node K T)}
    (hd : List.Pairwise (fun a b : Node K T => a.c < b.c) l)
    {x : Node K T} (hx : x ∈ l) {k : K} (hk : x.c = k) :
    l.find? (fun ch => ch.c = k) = some x := by
  induction l with
  | nil => cases hx
  | cons h t iht =>
    rcases List.mem_cons.mp hx with rfl | hxt
    · exact List.find?_cons_of_pos t (by simp [hk])
    · have hne : h.c ≠ k := by
        have := (List.pairwise_cons.mp hd).1 x hxt
        exact fun hc => absurd (hk ▸ hc ▸ this) (lt_irrefl _)
      rw [List.find?_cons_of_neg t (by simp [hne])]
      exact iht (List.pairwise_cons.mp hd).2 hxt

/-- On a well-formed node, the binary-search child step behaves exactly as
a linear search for the unique child carrying the key. -/
theorem childLookup_eq_find? [LinearOrder K] {n : Node K T} (hwf : WFNode n)
    (k : K) :
    childLookup n k = n.children.find? (fun ch => ch.c = k) := by
  rw [childLookup]
  split
  · next i hres =>
    obtain ⟨ch, hch, hkey⟩ := get_child_index_ok hwf hres
    rw [hch]
    exact (find?_keyed_eq_some hwf.sorted
      (by
        obtain ⟨hi, rfl⟩ := List.getElem?_eq_some.mp hch
        exact List.getElem_mem hi) hkey).symm
  · next i hres =>
    have := get_child_index_error_not_mem hwf hres
    exact (List.find?_eq_none.mpr (fun ch hch => by simp [this ch hch])).symm

/-- `Node::insert` never changes the key of the node it is called on. -/
theorem insert_c [LinearOrder K] (n : Node K T) (ks : List K) (t : T) :
    (n.insert ks t).c = n.c := by
  cases ks with
  | nil => rfl
  | cons k ks' =>
    rw [Node.insert]
    split
    · split <;> rfl
    · rfl

/-- Setting the slot just created by `insertIdx` overwrites the inserted
element. -/
theorem insertIdx_set_self {α : Type} {l : List α} :
    ∀ {i : Nat}, i ≤ l.length → ∀ (x y : α),
      (l.insertIdx i x).set i y = l.insertIdx i y := by
  induction l with
  | nil =>
    intro i hi x y
    obtain rfl : i = 0 := Nat.le_zero.mp (by simpa using hi)
    rfl
  | cons a l ihl =>
    intro i hi x y
    cases i with
    | zero => rfl
    | succ i' =>
      simp only [List.insertIdx_succ_cons, List.set_cons_succ]
      rw [ihl (by simpa using hi)]

/-- `map` distributes over `insertIdx`. -/
theorem map_insertIdx {α β : Type} (f : α → β) :
    ∀ (l : List α) (i : Nat) (x : α), i ≤ l.length →
      (l.insertIdx i x).map f = (l.map f).insertIdx i (f x) := by
  intro l
  induction l with
  | nil =>
    intro i x hi
    obtain rfl : i = 0 := Nat.le_zero.mp (by simpa using hi)
    rfl
  | cons a l ihl =>
    intro i x hi
    cases i with
    | zero => rfl
    | succ i' =>
      simp only [List.insertIdx_succ_cons, List.map_cons]
      rw [ihl i' x (by simpa using hi)]

/-- Inserting a fresh key at its sorted insertion point keeps a strictly
sorted list sorted. -/
theorem pairwise_lt_insertIdx [LinearOrder K] :
    ∀ (l : List K) (i : Nat) (x : K), List.Pairwise (· < ·) l → i ≤ l.length →
      (∀ (j : Nat) (_ : j < l.length), j < i → l[j] < x) →
      (∀ (j : Nat) (_ : j < l.length), i ≤ j → x < l[j]) →
      List.Pairwise (· < ·) (l.insertIdx i x) := by
  intro l
  induction l with
  | nil =>
    intro i x _ hi _ _
    obtain rfl : i = 0 := Nat.le_zero.mp (by simpa using hi)
    simp
  | cons a l ihl =>
    intro i x hs hi hlo hhi
    cases i with
    | zero =>
      rw [List.insertIdx_zero]
      refine List.pairwise_cons.mpr ⟨?_, hs⟩
      intro b hb
      rcases List.mem_cons.mp hb with rfl | hbl
      · exact hhi 0 (by simp) (by omega)
      · obtain ⟨j, hj, rfl⟩ := List.mem_iff_getElem.mp hbl
        exact hhi (j + 1) (by simpa using Nat.succ_lt_succ hj) (by omega)
    | succ i' =>
      rw [List.insertIdx_succ_cons]
      refine List.pairwise_cons.mpr ⟨?_, ?_⟩
      · intro b hb
        rcases (List.mem_insertIdx (by simpa using hi)).mp hb with rfl | hbl
        · exact hlo 0 (by simp) (by omega)
        · exact (List.pairwise_cons.mp hs).1 b hbl
      · exact ihl i' x (List.pairwise_cons.mp hs).2 (by simpa using hi)
          (fun j hj hji => hlo (j + 1) (by simpa using Nat.succ_lt_succ hj)
            (by omega))
          (fun j hj hji => hhi (j + 1) (by simpa using Nat.succ_lt_succ hj)
            (by omega))

/-- A list is unchanged by writing back the element already at a position. -/
theorem set_getElem?_self {α : Type} {l : List α} {i : Nat} {x : α}
    (h : l[i]? = some x) : l.set i x = l := by
  apply List.ext_getElem?
  intro j
  rw [List.getElem?_set]
  split
  · next hij =>
    subst hij
    rw [if_pos (by exact (List.getElem?_eq_some.mp h).1), h]
  · rfl

/-- `Node::insert` preserves the sorted-children invariant at every node
(C10's inductive step). -/
theorem WFNode.insert_preserves [LinearOrder K] :
    ∀ (ks : List K) {n : Node K T}, WFNode n → ∀ (t : T), WFNode (n.insert ks t) := by
  intro ks
  induction ks with
  | nil =>
    intro n hwf t
    obtain ⟨c0, children, ms⟩ := n
    cases hwf with
    | mk _ _ _ hsort hch => exact WFNode.mk _ _ _ hsort hch
  | cons k ks' ih =>
    intro n hwf t
    rw [Node.insert]
    split
    · next i hgc =>
      split
      · next ch hch =>
        refine WFNode.mk _ _ _ ?_ ?_
        · obtain ⟨ch', hch', hkey⟩ := get_child_index_ok hwf hgc
          rw [hch] at hch'
          cases hch'
          have hkeys : (n.children.set i (ch.insert ks' t)).map Node.c
              = n.children.map Node.c := by
            rw [List.map_set, insert_c]
            exact set_getElem?_self (by
              rw [List.getElem?_map, hch]
              rfl)
          have hsorted' : List.Pairwise (· < ·)
              ((n.children.set i (ch.insert ks' t)).map Node.c) := by
            rw [hkeys]
            exact List.pairwise_map.mpr hwf.sorted
          exact List.pairwise_map.mp hsorted'
        · intro y hy
          rcases List.mem_or_eq_of_mem_set hy with hyold | rfl
          · exact hwf.child hyold
          · refine ih (hwf.child ?_) t
            obtain ⟨hi, rfl⟩ := List.getElem?_eq_some.mp hch
            exact List.getElem_mem hi
      · next hch => exact hwf
    · next i hgc =>
      obtain ⟨hle, hbelow, habove⟩ := get_child_index_error hwf hgc
      rw [insertIdx_set_self hle]
      refine WFNode.mk _ _ _ ?_ ?_
      · have hkeys : ((n.children.insertIdx i
            ((Node.mk k ([] : List (Node K T)) ([] : List T)).insert ks' t)).map Node.c)
            = (n.children.map Node.c).insertIdx i k := by
          rw [map_insertIdx _ _ _ _ hle, insert_c]
          rfl
        have hsorted' : List.Pairwise (· < ·)
            ((n.children.map Node.c).insertIdx i k) := by
          refine pairwise_lt_insertIdx _ i k
            (List.pairwise_map.mpr hwf.sorted) (by simpa using hle) ?_ ?_
          · intro j hj hji
            have hj' : j < n.children.length := by simpa using hj
            have := hbelow j hj' hji
            simpa using this
          · intro j hj hji
            have hj' : j < n.children.length := by simpa using hj
            have := habove j hj' hji
            simpa using this
        exact List.pairwise_map.mp (hkeys ▸ hsorted')
      · intro y hy
        rcases (List.mem_insertIdx hle).mp hy with rfl | hyold
        · exact ih (WFNode.mk k [] [] (by simp) (by simp)) t
        · exact hwf.child hyold

/-- Any tree produced by folding `insert` over a rule table from `Tree::new`
satisfies the sorted-children invariant. -/
theorem buildTree_wf [LinearOrder K] [Inhabited K]
    (rules : List (List K × T)) : WFNode (buildTree rules) := by
  rw [buildTree]
  suffices h : ∀ (rs : List (List K × T)) (n : Node K T), WFNode n →
      WFNode (rs.foldl (fun n pt => n.insert pt.1 pt.2) n) from
    h rules treeNew (WFNode.mk _ [] [] (by simp) (by simp))
  intro rs
  induction rs with
  | nil => intro n h; simpa using h
  | cons p rs ihr =>
    intro n h
    exact ihr _ (WFNode.insert_preserves p.1 h p.2)

/-- Every payload stored at the node reached by `d` inserted keys records
`kana_in_chars = d`. -/
theorem DepthInv.stored {n : Node Char Info} {d : Nat} (h : DepthInv n d) :
    ∀ info ∈ n.matches_, info.kana_in_chars = d := by
  cases h; simpa

/-- Depth consistency descends to every child, one level deeper. -/
theorem DepthInv.down {n : Node Char Info} {d : Nat} (h : DepthInv n d)
    {ch : Node Char Info} (hm : ch ∈ n.children) : DepthInv ch (d + 1) := by
  cases h with
  | mk c children ms d hms hch => exact hch ch (by simpa using hm)

/-- `Node::insert` adds exactly its payload: every payload of the result is
the inserted one or was already in the tree. -/
theorem InTree_insert [LinearOrder K] :
    ∀ (ks : List K) {n : Node K T}, WFNode n → ∀ (t x : T),
      InTree x (n.insert ks t) → x = t ∨ InTree x n := by
  intro ks
  induction ks with
  | nil =>
    intro n hwf t x h
    obtain ⟨c0, children, ms⟩ := n
    cases h with
    | here hm =>
      have hm' : x ∈ ms ++ [t] := hm
      rcases List.mem_append.mp hm' with hold | hnew
      · exact Or.inr (InTree.here (show x ∈ ms from hold))
      · exact Or.inl (List.mem_singleton.mp hnew)
    | child hc hin => exact Or.inr (InTree.child hc hin)
  | cons k ks' ih =>
    intro n hwf t x h
    rw [Node.insert] at h
    split at h
    · next i hgc =>
      split at h
      · next ch hch =>
        cases h with
        | here hm => exact Or.inr (InTree.here hm)
        | child hc hin =>
          rcases List.mem_or_eq_of_mem_set hc with hcold | rfl
          · exact Or.inr (InTree.child hcold hin)
          · have hchmem : ch ∈ n.children := by
              obtain ⟨hi, rfl⟩ := List.getElem?_eq_some.mp hch
              exact List.getElem_mem hi
            rcases ih (hwf.child hchmem) t x hin with rfl | hinch
            · exact Or.inl rfl
            · exact Or.inr (InTree.child hchmem hinch)
      · next hch => exact Or.inr h
    · next i hgc =>
      obtain ⟨hle, -, -⟩ := get_child_index_error hwf hgc
      rw [insertIdx_set_self hle] at h
      cases h with
      | here hm => exact Or.inr (InTree.here hm)
      | child hc hin =>
        rcases (List.mem_insertIdx hle).mp hc with rfl | hcold
        · rcases ih (WFNode.mk k [] [] (by simp) (by simp)) t x hin
            with rfl | hblank
          · exact Or.inl rfl
          · cases hblank with
            | here hm => cases hm
            | child hc2 hin2 => cases hc2
        · exact Or.inr (InTree.child hcold hin)

/-- `Node::insert` preserves depth consistency when the payload's stored
count equals the insertion depth plus the remaining path length — which is
how `LOOKUP_TREE` always calls it (`kana_in_chars` = full path length,
insertion starting at the root, depth 0). -/
theorem DepthInv_insert :
    ∀ (ks : List Char) {n : Node Char Info}, WFNode n →
      ∀ (d : Nat) (info : Info), DepthInv n d →
      info.kana_in_chars = d + ks.length →
      DepthInv (n.insert ks info) d := by
  intro ks
  induction ks with
  | nil =>
    intro n hwf d info hd hlen
    obtain ⟨c0, children, ms⟩ := n
    refine DepthInv.mk _ _ _ _ ?_ (fun ch hch => hd.down hch)
    intro y hy
    have hy' : y ∈ ms ++ [info] := hy
    rcases List.mem_append.mp hy' with hold | hnew
    · exact hd.stored y hold
    · rw [List.mem_singleton.mp hnew]
      simpa using hlen
  | cons k ks' ih =>
    intro n hwf d info hd hlen
    rw [Node.insert]
    split
    · next i hgc =>
      split
      · next ch hch =>
        refine DepthInv.mk _ _ _ _ (fun y hy => hd.stored y hy) ?_
        intro y hy
        rcases List.mem_or_eq_of_mem_set hy with hyold | rfl
        · exact hd.down hyold
        · have hchmem : ch ∈ n.children := by
            obtain ⟨hi, rfl⟩ := List.getElem?_eq_some.mp hch
            exact List.getElem_mem hi
          exact ih (hwf.child hchmem) (d + 1) info (hd.down hchmem)
            (by simp at hlen ⊢; omega)
      · next hch => exact hd
    · next i hgc =>
      obtain ⟨hle, -, -⟩ := get_child_index_error hwf hgc
      rw [insertIdx_set_self hle]
      refine DepthInv.mk _ _ _ _ (fun y hy => hd.stored y hy) ?_
      intro y hy
      rcases (List.mem_insertIdx hle).mp hy with rfl | hyold
      · refine ih (WFNode.mk k [] [] (by simp) (by simp)) (d + 1) info
          ?_ (by simp at hlen ⊢; omega)
        exact DepthInv.mk _ _ _ _ (fun z hz => by cases hz)
          (fun ch hch => by cases hch)
      · exact hd.down hyold

/-- Folding `insert` over a table only adds the table's payloads. -/
theorem InTree_foldl_insert [LinearOrder K] :
    ∀ (rs : List (List K × T)) (n : Node K T), WFNode n → ∀ x : T,
      InTree x (rs.foldl (fun n pt => n.insert pt.1 pt.2) n) →
      (∃ pt ∈ rs, pt.2 = x) ∨ InTree x n := by
  intro rs
  induction rs with
  | nil => intro n _ x h; exact Or.inr h
  | cons p rs ihr =>
    intro n hwf x h
    rcases ihr _ (WFNode.insert_preserves p.1 hwf p.2) x h
      with ⟨pt, hpt, rfl⟩ | hin
    · exact Or.inl ⟨pt, List.Mem.tail _ hpt, rfl⟩
    · rcases InTree_insert p.1 hwf p.2 x hin with rfl | hold
      · exact Or.inl ⟨p, List.Mem.head _, rfl⟩
      · exact Or.inr hold

/-- Every payload anywhere in the built lookup tree is an entry of the rule
table it was built from. -/
theorem InTree_buildTree (rs : List (List Char × Info)) (x : Info)
    (h : InTree x (buildTree rs)) : ∃ pt ∈ rs, pt.2 = x := by
  rw [buildTree] at h
  rcases InTree_foldl_insert rs treeNew
      (WFNode.mk _ [] [] (by simp) (by simp)) x h with hx | hin
  · exact hx
  · cases hin with
    | here hm => simp [treeNew] at hm
    | child hc hin2 => simp [treeNew] at hc

/-- Folding `insert` from a depth-consistent node over path-accurate table
entries keeps the tree depth-consistent. -/
theorem DepthInv_foldl_insert :
    ∀ (rs : List (List Char × Info)) (n : Node Char Info), WFNode n →
      DepthInv n 0 → (∀ pt ∈ rs, pt.2.kana_in_chars = pt.1.length) →
      DepthInv (rs.foldl (fun n pt => n.insert pt.1 pt.2) n) 0 := by
  intro rs
  induction rs with
  | nil => intro n _ hd _; exact hd
  | cons p rs ihr =>
    intro n hwf hd hcount
    exact ihr _ (WFNode.insert_preserves p.1 hwf p.2)
      (DepthInv_insert p.1 hwf 0 p.2 hd
        (by simpa using hcount p (List.Mem.head _)))
      (fun pt hpt => hcount pt (List.Mem.tail _ hpt))

/-- The tree `LOOKUP_TREE`'s builder produces from a table whose entries
store their own path length (as `kana_in_chars = kana_in.chars().count()`
with path `kana_in.chars().rev()` does) is depth-consistent. -/
theorem DepthInv_buildTree (rs : List (List Char × Info))
    (hcount : ∀ pt ∈ rs, pt.2.kana_in_chars = pt.1.length) :
    DepthInv (buildTree rs) 0 := by
  rw [buildTree]
  exact DepthInv_foldl_insert rs treeNew
    (WFNode.mk _ [] [] (by simp) (by simp))
    (DepthInv.mk _ _ _ _ (by simp) (by simp)) hcount

/-! ## The walk of `get_submatches`, and the effect of `insert` on paths -/

/-- `get_submatches` on a non-empty source: emit this node's matches, then
descend through the binary-search child step. -/
theorem get_submatches_cons [LinearOrder K] (n : Node K T) (k : K) (ks : List K) :
    n.get_submatches (k :: ks) = n.matches_ ++
      ((childLookup n k).map (fun ch => ch.get_submatches ks)).getD [] := by
  rw [Node.get_submatches, childLookup]
  congr 1
  split
  · next i hgc =>
    cases n.children[i]? <;> rfl
  · rfl

/-- A child delivered by the binary-search step is one of the children. -/
theorem childLookup_mem [LinearOrder K] {n ch : Node K T} {k : K}
    (h : childLookup n k = some ch) : ch ∈ n.children := by
  rw [childLookup] at h
  split at h
  · obtain ⟨hi, rfl⟩ := List.getElem?_eq_some.mp h
    exact List.getElem_mem hi
  · cases h

/-- `Node::insert` on a non-empty path never touches the receiver's own
match list. -/
theorem insert_matches_root [LinearOrder K] (n : Node K T) (k : K)
    (ks' : List K) (t : T) :
    (n.insert (k :: ks') t).matches_ = n.matches_ := by
  rw [Node.insert]
  split
  · split <;> rfl
  · rfl

/-- The effect of `Node::insert` on the child-lookup step: looking up the
inserted path's head finds the (updated or freshly created) child, every
other key is untouched. -/
theorem childLookup_insert [LinearOrder K] {n : Node K T} (hwf : WFNode n)
    (k : K) (ks' : List K) (t : T) (k' : K) :
    childLookup (n.insert (k :: ks') t) k' =
      if k' = k
      then some (((childLookup n k).getD (Node.mk k [] [])).insert ks' t)
      else childLookup n k' := by
  have hwf' : WFNode (n.insert (k :: ks') t) := WFNode.insert_preserves _ hwf t
  rw [childLookup_eq_find? hwf' k', childLookup_eq_find? hwf k']
  rw [childLookup_eq_find? hwf k]
  have hsort' := hwf'.sorted
  cases hgc : n.get_child_index k with
  | ok i =>
    -- found: child at `i` is replaced in place
    obtain ⟨ch, hch, hkey⟩ := get_child_index_ok hwf hgc
    have hins : n.insert (k :: ks') t
        = Node.mk n.c (n.children.set i (ch.insert ks' t)) n.matches_ := by
      simp only [Node.insert, hgc, hch]
    rw [hins] at hsort' ⊢
    simp only [Node.children_mk] at hsort' ⊢
    have hfind : n.children.find? (fun ch' => ch'.c = k) = some ch :=
      find?_keyed_eq_some hwf.sorted
        (by
          obtain ⟨hi, rfl⟩ := List.getElem?_eq_some.mp hch
          exact List.getElem_mem hi) hkey
    rw [hfind]
    have hilen : i < n.children.length := (List.getElem?_eq_some.mp hch).1
    have hmemx : ch.insert ks' t ∈ n.children.set i (ch.insert ks' t) := by
      have h2 : (n.children.set i (ch.insert ks' t))[i]? = some (ch.insert ks' t) :=
        List.getElem?_set_eq_of_lt _ hilen
      obtain ⟨hi2, h3⟩ := List.getElem?_eq_some.mp h2
      have h4 := List.getElem_mem hi2
      rw [h3] at h4
      exact h4
    by_cases hk' : k' = k
    · subst hk'
      rw [if_pos rfl]
      exact find?_keyed_eq_some hsort' hmemx (by rw [insert_c]; exact hkey)
    · rw [if_neg hk']
      rcases hfind' : n.children.find? (fun ch' => ch'.c = k') with _ | y
      all_goals rw [hfind']
      · refine List.find?_eq_none.mpr ?_
        intro z hz
        rcases List.mem_or_eq_of_mem_set hz with hzl | rfl
        · exact by simpa using List.find?_eq_none.mp hfind' z hzl
        · simp only [decide_eq_true_eq]
          rw [insert_c, hkey]
          exact fun h => hk' h.symm
      · have hymem : y ∈ n.children := List.mem_of_find?_eq_some hfind'
        have hykey : y.c = k' := by
          simpa using List.find?_some hfind'
        obtain ⟨j, hj, hyj⟩ := List.mem_iff_getElem.mp hymem
        have hji : i ≠ j := by
          intro hji
          subst hji
          have h5 : n.children[i]? = some y := List.getElem?_eq_some.mpr ⟨hj, hyj⟩
          rw [hch] at h5
          apply hk'
          rw [← hykey, ← Option.some.inj h5, hkey]
        have hymem' : y ∈ n.children.set i (ch.insert ks' t) := by
          have h2 : (n.children.set i (ch.insert ks' t))[j]? = some y := by
            rw [List.getElem?_set_ne hji]
            exact List.getElem?_eq_some.mpr ⟨hj, hyj⟩
          obtain ⟨hj2, h3⟩ := List.getElem?_eq_some.mp h2
          have h4 := List.getElem_mem hj2
          rw [h3] at h4
          exact h4
        exact find?_keyed_eq_some hsort' hymem' hykey
  | error i =>
    -- not found: a fresh child is inserted at the sorted insertion point
    obtain ⟨hle, hbelow, habove⟩ := get_child_index_error hwf hgc
    have hnomem := get_child_index_error_not_mem hwf hgc
    have hins : n.insert (k :: ks') t
        = Node.mk n.c
            (n.children.insertIdx i ((Node.mk k [] []).insert ks' t))
            n.matches_ := by
      simp only [Node.insert, hgc]
      rw [insertIdx_set_self hle]
    rw [hins] at hsort' ⊢
    simp only [Node.children_mk] at hsort' ⊢
    have hfind : n.children.find? (fun ch' => ch'.c = k) = none :=
      List.find?_eq_none.mpr (fun z hz => by simpa using hnomem z hz)
    rw [hfind]
    have hmemx : (Node.mk k ([] : List (Node K T)) ([] : List T)).insert ks' t ∈
        n.children.insertIdx i ((Node.mk k [] []).insert ks' t) :=
      (List.mem_insertIdx hle).mpr (Or.inl rfl)
    by_cases hk' : k' = k
    · subst hk'
      rw [if_pos rfl]
      exact find?_keyed_eq_some hsort' hmemx (by rw [insert_c]; rfl)
    · rw [if_neg hk']
      rcases hfind' : n.children.find? (fun ch' => ch'.c = k') with _ | y
      all_goals rw [hfind']
      · refine List.find?_eq_none.mpr ?_
        intro z hz
        rcases (List.mem_insertIdx hle).mp hz with rfl | hzl
        · simp only [decide_eq_true_eq]
          rw [insert_c]
          exact fun h => hk' h.symm
        · exact by simpa using List.find?_eq_none.mp hfind' z hzl
      · have hymem : y ∈ n.children := List.mem_of_find?_eq_some hfind'
        have hykey : y.c = k' := by
          simpa using List.find?_some hfind'
        exact find?_keyed_eq_some hsort'
          ((List.mem_insertIdx hle).mpr (Or.inr hymem)) hykey

@[simp] theorem matchesAt_nil [LinearOrder K] (n : Node K T) :
    matchesAt n [] = n.matches_ := rfl

theorem matchesAt_cons [LinearOrder K] (n : Node K T) (k : K) (q : List K) :
    matchesAt n (k :: q)
      = ((childLookup n k).map (fun ch => matchesAt ch q)).getD [] := by
  rw [matchesAt, nodeAt]
  cases childLookup n k with
  | some ch => rfl
  | none => rfl

theorem nodeAt_cons [LinearOrder K] (n : Node K T) (k : K) (q : List K) :
    nodeAt n (k :: q) = (childLookup n k).bind (fun ch => nodeAt ch q) := by
  rw [nodeAt]
  cases childLookup n k with
  | some ch => rfl
  | none => rfl

/-- The fresh leaf node created by `insert` carries no matches anywhere. -/
theorem matchesAt_blank [LinearOrder K] (k : K) (q : List K) :
    matchesAt (Node.mk k ([] : List (Node K T)) ([] : List T)) q = [] := by
  cases q with
  | nil => rfl
  | cons k' q' => rfl

theorem nodeAt_blank_isSome [LinearOrder K] (k : K) (q : List K) :
    (nodeAt (Node.mk k ([] : List (Node K T)) ([] : List T)) q).isSome
      ↔ q = [] := by
  cases q with
  | nil => simp [nodeAt]
  | cons k' q' =>
    rw [nodeAt_cons]
    have : childLookup (Node.mk k ([] : List (Node K T)) ([] : List T)) k'
        = none := rfl
    rw [this]
    simp

/-- The matches recorded at path `q` after inserting payload `t` at path
`p`: unchanged everywhere except at `q = p`, where `t` is appended. -/
theorem matchesAt_insert [LinearOrder K] :
    ∀ (p : List K) {n : Node K T}, WFNode n → ∀ (t : T) (q : List K),
      matchesAt (n.insert p t) q
        = matchesAt n q ++ if q = p then [t] else [] := by
  intro p
  induction p with
  | nil =>
    intro n hwf t q
    cases q with
    | nil => simp [matchesAt, nodeAt, Node.insert]
    | cons k q' =>
      rw [matchesAt_cons, matchesAt_cons]
      have hcl : childLookup (n.insert ([] : List K) t) k = childLookup n k := rfl
      rw [hcl]
      simp
  | cons k ks' ih =>
    intro n hwf t q
    cases q with
    | nil =>
      rw [show matchesAt (n.insert (k :: ks') t) [] = (n.insert (k :: ks') t).matches_
          from rfl, insert_matches_root]
      simp
    | cons k' q' =>
      rw [matchesAt_cons, matchesAt_cons, childLookup_insert hwf k ks' t k']
      by_cases hk' : k' = k
      · subst hk'
        rw [if_pos rfl]
        cases hcl : childLookup n k' with
        | some ch =>
          simp only [hcl, Option.getD_some, Option.map_some']
          rw [ih (hwf.child (childLookup_mem hcl)) t q']
          simp [List.cons.injEq]
        | none =>
          simp only [hcl, Option.getD_none, Option.map_some', Option.map_none']
          rw [ih (WFNode.mk k' [] [] (by simp) (by simp)) t q', matchesAt_blank]
          simp [List.cons.injEq]
      · rw [if_neg hk']
        simp [List.cons.injEq, hk']

/-- Node existence at path `q` after inserting along path `p`: the old
node, or any prefix of `p` (`insert` creates the whole chain). -/
theorem nodeAt_isSome_insert [LinearOrder K] :
    ∀ (p : List K) {n : Node K T}, WFNode n → ∀ (t : T) (q : List K),
      (nodeAt (n.insert p t) q).isSome
        ↔ (nodeAt n q).isSome ∨ q <+: p := by
  intro p
  induction p with
  | nil =>
    intro n hwf t q
    cases q with
    | nil => simp [nodeAt]
    | cons k q' =>
      rw [nodeAt_cons, nodeAt_cons]
      have hcl : childLookup (n.insert ([] : List K) t) k = childLookup n k := rfl
      rw [hcl]
      simp
  | cons k ks' ih =>
    intro n hwf t q
    cases q with
    | nil => simp [nodeAt]
    | cons k' q' =>
      rw [nodeAt_cons, nodeAt_cons, childLookup_insert hwf k ks' t k']
      by_cases hk' : k' = k
      · subst hk'
        rw [if_pos rfl]
        cases hcl : childLookup n k' with
        | some ch =>
          simp only [hcl, Option.getD_some, Option.some_bind]
          rw [ih (hwf.child (childLookup_mem hcl)) t q', List.cons_prefix_cons]
          simp
        | none =>
          simp only [hcl, Option.getD_none, Option.some_bind, Option.none_bind]
          rw [ih (WFNode.mk k' [] [] (by simp) (by simp)) t q',
            nodeAt_blank_isSome, List.cons_prefix_cons]
          simp only [Option.isSome_none, Bool.false_eq_true, false_or, true_and]
          constructor
          · rintro (rfl | h)
            · exact List.nil_prefix
            · exact h
          · intro h
            exact Or.inr h
      · rw [if_neg hk']
        rw [List.cons_prefix_cons]
        simp [hk']

/-- The matches recorded at path `p` of a built tree are exactly the table
entries whose path equals `p`, in original table order. -/
theorem matchesAt_buildTree [LinearOrder K] [Inhabited K]
    (L : List (List K × T)) (p : List K) :
    matchesAt (buildTree L) p
      = (L.filter (fun pt => pt.1 = p)).map Prod.snd := by
  rw [buildTree]
  suffices h : ∀ (rs : List (List K × T)) (n : Node K T), WFNode n →
      matchesAt (rs.foldl (fun n pt => n.insert pt.1 pt.2) n) p
        = matchesAt n p ++ (rs.filter (fun pt => pt.1 = p)).map Prod.snd by
    rw [h L treeNew (WFNode.mk _ [] [] (by simp) (by simp)),
      show matchesAt (treeNew : Node K T) p = [] from matchesAt_blank _ p]
    rfl
  intro rs
  induction rs with
  | nil => intro n hwf; simp
  | cons pt rs' ihr =>
    intro n hwf
    rw [List.foldl_cons, ihr _ (WFNode.insert_preserves pt.1 hwf pt.2),
      matchesAt_insert pt.1 hwf pt.2 p, List.filter_cons]
    by_cases hp : pt.1 = p
    · rw [if_pos (show decide (pt.1 = p) = true by simp [hp]), if_pos hp.symm]
      simp
    · rw [if_neg (show ¬ decide (pt.1 = p) = true by simp [hp]),
        if_neg (fun h => hp h.symm)]
      simp

/-- A node exists at path `p` of a built tree exactly when `p` is the root
path or a prefix of some table entry's path. -/
theorem nodeAt_buildTree_isSome [LinearOrder K] [Inhabited K]
    (L : List (List K × T)) (p : List K) :
    (nodeAt (buildTree L) p).isSome ↔ p = [] ∨ ∃ pt ∈ L, p <+: pt.1 := by
  rw [buildTree]
  suffices h : ∀ (rs : List (List K × T)) (n : Node K T), WFNode n →
      ((nodeAt (rs.foldl (fun n pt => n.insert pt.1 pt.2) n) p).isSome ↔
        (nodeAt n p).isSome ∨ ∃ pt ∈ rs, p <+: pt.1) by
    rw [h L treeNew (WFNode.mk _ [] [] (by simp) (by simp)),
      show (treeNew : Node K T) = Node.mk default [] [] from rfl,
      nodeAt_blank_isSome]
  intro rs
  induction rs with
  | nil =>
    intro n hwf
    rw [List.foldl_nil]
    constructor
    · exact fun h => Or.inl h
    · rintro (h | ⟨pt, hpt, -⟩)
      · exact h
      · exact absurd hpt (List.not_mem_nil pt)
  | cons pt rs' ihr =>
    intro n hwf
    rw [List.foldl_cons, ihr _ (WFNode.insert_preserves pt.1 hwf pt.2),
      nodeAt_isSome_insert pt.1 hwf pt.2 p]
    constructor
    · rintro ((h | h) | ⟨pt', hpt', hpre⟩)
      · exact Or.inl h
      · refine Or.inr ⟨pt, ?_, h⟩
        exact List.Mem.head rs'
      · refine Or.inr ⟨pt', ?_, hpre⟩
        exact List.Mem.tail pt hpt'
    · rintro (h | ⟨pt', hpt', hpre⟩)
      · exact Or.inl (Or.inl h)
      · rcases List.mem_cons.mp hpt' with rfl | hpt''
        · exact Or.inl (Or.inr hpre)
        · exact Or.inr ⟨pt', hpt'', hpre⟩

/-- Structure of the streaming walk: on a well-formed tree, the yielded
sequence is the concatenation, by increasing depth `d`, of the match lists
recorded along the path `cs.take d`; the walk visits every depth up to some
`D` and stops exactly at the source's end or at the first missing child. -/
theorem get_submatches_decomp [LinearOrder K] :
    ∀ (cs : List K) {n : Node K T}, WFNode n →
      ∃ D, D ≤ cs.length ∧
        n.get_submatches cs
          = (List.range (D + 1)).flatMap (fun d => matchesAt n (cs.take d)) ∧
        (∀ d, d ≤ D → (nodeAt n (cs.take d)).isSome) ∧
        (D = cs.length ∨ nodeAt n (cs.take (D + 1)) = none) := by
  intro cs
  induction cs with
  | nil =>
    intro n hwf
    refine ⟨0, le_rfl,
      by rw [show List.range 1 = [0] from rfl]; simp [Node.get_submatches],
      ?_, Or.inl rfl⟩
    intro d hd
    obtain rfl : d = 0 := Nat.le_zero.mp hd
    simp [nodeAt]
  | cons k cs' ih =>
    intro n hwf
    rw [get_submatches_cons]
    cases hcl : childLookup n k with
    | none =>
      refine ⟨0, by simp, ?_, ?_, ?_⟩
      · rw [show List.range 1 = [0] from rfl]
        simp [hcl]
      · intro d hd
        obtain rfl : d = 0 := Nat.le_zero.mp hd
        simp [nodeAt]
      · right
        rw [show (k :: cs').take 1 = [k] by simp, nodeAt_cons]
        simp [hcl, nodeAt]
    | some ch =>
      obtain ⟨D', hD'le, hsub, hsome, hterm⟩ := ih (hwf.child (childLookup_mem hcl))
      refine ⟨D' + 1, by simpa using Nat.succ_le_succ hD'le, ?_, ?_, ?_⟩
      · simp only [hcl, Option.map_some', Option.getD_some]
        rw [hsub]
        nth_rewrite 2 [List.range_succ_eq_map]
        rw [List.flatMap_cons, List.flatMap_map]
        congr 1
        all_goals simp only [List.take_zero, matchesAt_nil,
          List.take_succ_cons, matchesAt_cons, hcl,
          Option.map_some', Option.getD_some]
      · intro d hd
        cases d with
        | zero => simp [nodeAt]
        | succ d' =>
          rw [List.take_succ_cons, nodeAt_cons]
          simp only [hcl, Option.some_bind]
          exact hsome d' (Nat.le_of_succ_le_succ hd)
      · rcases hterm with h | h
        · left
          simp [h]
        · right
          rw [List.take_succ_cons, nodeAt_cons]
          simp only [hcl, Option.some_bind]
          exact h

/-- C1: the backward reconstruction (`chars_rev`, collected forward by
`to_string`) satisfies the spec's unit cases over original word `"abc"`:
replacing 1 trailing char with `"de"` renders `"abde"`; replacing 4 trailing
chars (more than the word's length) with `"de"` renders `"de"` with no
underflow; and the three-layer chain renders `"abde"`, `"abdfg"` and `"abh"`,
the carry-over crossing a full layer boundary. -/
theorem c1_reconstruction_unit_cases :
    (singleLayer 1).to_string 0 = some ['a', 'b', 'd', 'e'] ∧
    (singleLayer 4).to_string 0 = some ['d', 'e'] ∧
    chainForest.to_string 0 = some ['a', 'b', 'd', 'e'] ∧
    chainForest.to_string 1 = some ['a', 'b', 'd', 'f', 'g'] ∧
    chainForest.to_string 2 = some ['a', 'b', 'h'] := by
  decide

/-! ## C2: the sentence scanner (`from_str`) -/

/-- C2 (as stated, with `k` ranging up to the full character length of `s`
*inclusive*) is false: on the one-character string `"a"`, `from_str` returns
a single forest (for `k = 0`); there is no forest for `k = 1` (the empty
prefix).  The `scan` in the source yields exactly one prefix per character
of `s`. -/
theorem c2_counterexample :
    ¬ (∀ k : Nat, k ≤ 1 →
        (fromStr treeNew 1 ['a'])[k]? =
          some (fromWord treeNew 1 (List.take (1 - k) ['a']))) := by
  intro h
  have h1 := h 1 (by decide)
  simp [fromStr, List.getElem?_map] at h1
  obtain ⟨a, ha, -⟩ := h1
  rw [show (List.range 1) = [0] from rfl] at ha
  simp at ha

/-- C2 (amended): `from_str s` returns one candidate forest per number of
trailing characters dropped for every `k` *strictly below* the character
length of `s` (one forest per character; the empty prefix is not included),
the forest for `k` being `from_word` applied to `s` with its last `k`
characters removed. -/
theorem c2_from_str_per_truncation (tree : Node Char Info) (fuel : Nat)
    (s : List Char) :
    (fromStr tree fuel s).length = s.length ∧
    ∀ k : Nat,
      (fromStr tree fuel s)[k]? =
        if k < s.length then some (fromWord tree fuel (s.take (s.length - k)))
        else none := by
  constructor
  · simp [fromStr]
  · intro k
    by_cases hk : k < s.length <;>
      simp [fromStr, List.getElem?_map, List.getElem?_range, hk, Nat.le_of_not_lt]

/-! ## C4: the streaming query's yield order -/

/-- C4: for every trie built by `insert` over a rule table `L` and every
(finite) reversed character source `cs`, the sequence yielded by
`get_submatches` consists exactly of the rules whose stored (reversed input
suffix) path equals a prefix `cs.take d` of the source, concatenated by
increasing matched length `d` — so every rule with a shorter matching suffix
is yielded before every rule with a longer one, and rules of equal suffix
length appear in original table-insertion order (`filter` preserves `L`'s
order).  The walk covers depths `0..D` and ends exactly when the source is
exhausted (`D = cs.length`) or no child matches the next character (no table
path extends `cs.take (D+1)`). -/
theorem c4_get_submatches_order [LinearOrder K] [Inhabited K]
    (L : List (List K × T)) (cs : List K) :
    ∃ D, D ≤ cs.length ∧
      (buildTree L).get_submatches cs
        = (List.range (D + 1)).flatMap
            (fun d => (L.filter (fun pt => pt.1 = cs.take d)).map Prod.snd) ∧
      (∀ d, d ≤ D → d = 0 ∨ ∃ pt ∈ L, cs.take d <+: pt.1) ∧
      (D = cs.length ∨ ¬ ∃ pt ∈ L, cs.take (D + 1) <+: pt.1) := by
  obtain ⟨D, hDle, hsub, hsome, hterm⟩ :=
    get_submatches_decomp cs (buildTree_wf L)
  refine ⟨D, hDle, ?_, ?_, ?_⟩
  · rw [hsub]
    have hfun : (fun d => matchesAt (buildTree L) (cs.take d))
        = (fun d => (L.filter (fun pt => pt.1 = cs.take d)).map Prod.snd) := by
      funext d
      exact matchesAt_buildTree L (cs.take d)
    rw [hfun]
  · intro d hd
    have h1 := hsome d hd
    rw [nodeAt_buildTree_isSome] at h1
    rcases h1 with h1 | h1
    · left
      rcases List.take_eq_nil_iff.mp h1 with h2 | h2
      · exact h2
      · subst h2
        simp only [List.length_nil, Nat.le_zero] at hDle
        omega
    · exact Or.inr h1
  · rcases hterm with h | h
    · exact Or.inl h
    · right
      intro hex
      have h2 := (nodeAt_buildTree_isSome L (cs.take (D + 1))).mpr (Or.inr hex)
      rw [h] at h2
      simp at h2

/-! ## Worklist invariants of `from_word` (C3, C5, C6, C9) -/

/-- Bitmask absorption: a mask is contained in its union with anything. -/
theorem nat_and_or_self (a b : Nat) : a &&& (a ||| b) = a := by
  apply Nat.eq_of_testBit_eq
  intro i
  simp only [Nat.testBit_and, Nat.testBit_or]
  cases a.testBit i <;> simp

/-- A bitwise union with a non-empty mask is non-empty. -/
theorem nat_lor_ne_zero_right (a : Nat) {b : Nat} (hb : b ≠ 0) :
    a ||| b ≠ 0 := by
  intro h
  apply hb
  apply Nat.eq_of_testBit_eq
  intro i
  have h2 := congrArg (Nat.testBit · i) h
  simp only [Nat.testBit_or] at h2
  simp at h2 ⊢
  exact h2.2

/-- Everything yielded by `get_submatches` is stored somewhere in the tree. -/
theorem get_submatches_inTree [LinearOrder K] :
    ∀ (cs : List K) (n : Node K T) (t : T),
      t ∈ n.get_submatches cs → InTree t n := by
  intro cs
  induction cs with
  | nil =>
    intro n t ht
    exact InTree.here ht
  | cons k cs' ih =>
    intro n t ht
    rw [Node.get_submatches] at ht
    rcases List.mem_append.mp ht with h | h
    · exact InTree.here h
    · split at h
      · next i hgc =>
        split at h
        · next ch hch =>
          obtain ⟨hi, rfl⟩ := List.getElem?_eq_some.mp hch
          exact InTree.child (List.getElem_mem hi) (ih _ _ h)
        · cases h
      · cases h

/-- Inversion of the class-compatibility gate and child construction in the
body of `from_word`'s `for` loop. -/
theorem ruleStep_some {prev : DeinflectionData} {i : Nat} {info : Info}
    {dd : DeinflectionData} (h : ruleStep prev i info = some dd) :
    (prev.rules = 0 ∨ prev.rules &&& info.rule.rules_in ≠ 0) ∧
    dd = { source := .deinflection i,
           replace_from_back := info.kana_in_chars,
           replace_with := info.rule.kana_out,
           replace_with_chars := info.kana_out_chars,
           rules := info.rule.rules_out,
           reasons := prev.reasons ||| info.reason } := by
  rw [ruleStep] at h
  split at h
  · next hc => exact ⟨hc, (Option.some.inj h).symm⟩
  · cases h

/-- Membership in one worklist step: every appended candidate comes from the
processed candidate `i` through a yielded rule and the class gate. -/
theorem expandOne_mem {tree : Node Char Info} {word : List Char}
    {ds : List DeinflectionData} {i : Nat} {dd : DeinflectionData}
    (h : dd ∈ expandOne tree word ds i) :
    ∃ prev info, ds[i]? = some prev ∧ InTree info tree ∧
      ruleStep prev i info = some dd := by
  rw [expandOne] at h
  split at h
  · cases h
  · next prev hprev =>
    obtain ⟨info, hinfo, hstep⟩ := List.mem_filterMap.mp h
    exact ⟨prev, info, hprev, get_submatches_inTree _ _ _ hinfo, hstep⟩

/-- Any predicate on the candidate list preserved by one worklist step holds
for every state the loop can reach. -/
theorem fromWordAux_invariant (tree : Node Char Info) (word : List Char)
    (P : List DeinflectionData → Prop)
    (hstep : ∀ ds i, P ds → P (ds ++ expandOne tree word ds i)) :
    ∀ (fuel : Nat) (ds : List DeinflectionData) (i : Nat),
      P ds → P (fromWordAux tree word fuel ds i).1 := by
  intro fuel
  induction fuel with
  | zero => intro ds i h; exact h
  | succ fuel ih =>
    intro ds i h
    rw [fromWordAux]
    split
    · exact ih _ _ (hstep ds i h)
    · exact h

/-- The combined parent-link invariant of every reachable forest state:
each non-root candidate records its parent index, and its fields are exactly
those `from_word` computes from the parent and a rule stored in the tree
that passed the class-compatibility gate. -/
theorem fromWordAux_child_spec (tree : Node Char Info) (word : List Char)
    (fuel : Nat) :
    ∀ (j : Nat) (dd : DeinflectionData) (p : Nat),
      (fromWordAux tree word fuel [initData] 0).1[j]? = some dd →
      dd.source = .deinflection p →
      ∃ prev info,
        (fromWordAux tree word fuel [initData] 0).1[p]? = some prev ∧
        InTree info tree ∧
        (prev.rules = 0 ∨ prev.rules &&& info.rule.rules_in ≠ 0) ∧
        dd.replace_from_back = info.kana_in_chars ∧
        dd.replace_with = info.rule.kana_out ∧
        dd.replace_with_chars = info.kana_out_chars ∧
        dd.rules = info.rule.rules_out ∧
        dd.reasons = prev.reasons ||| info.reason := by
  have h := fromWordAux_invariant tree word
    (fun ds => ∀ (j : Nat) (dd : DeinflectionData) (p : Nat),
      ds[j]? = some dd → dd.source = .deinflection p →
      ∃ prev info, ds[p]? = some prev ∧ InTree info tree ∧
        (prev.rules = 0 ∨ prev.rules &&& info.rule.rules_in ≠ 0) ∧
        dd.replace_from_back = info.kana_in_chars ∧
        dd.replace_with = info.rule.kana_out ∧
        dd.replace_with_chars = info.kana_out_chars ∧
        dd.rules = info.rule.rules_out ∧
        dd.reasons = prev.reasons ||| info.reason)
    ?_ fuel [initData] 0 ?_
  · exact h
  · intro ds i hP j dd p hj hsrc
    rcases Nat.lt_or_ge j ds.length with hjlt | hjge
    · rw [List.getElem?_append_left (by simpa using hjlt)] at hj
      obtain ⟨prev, info, hp, hrest⟩ := hP j dd p hj hsrc
      have hplt : p < ds.length := (List.getElem?_eq_some.mp hp).1
      exact ⟨prev, info, by
        rw [List.getElem?_append_left (by simpa using hplt)]; exact hp, hrest⟩
    · rw [List.getElem?_append_right hjge] at hj
      have hmem : dd ∈ expandOne tree word ds i := by
        obtain ⟨hlt, heq⟩ := List.getElem?_eq_some.mp hj
        exact heq ▸ List.getElem_mem hlt
      obtain ⟨prev, info, hprev, hintree, hstep⟩ := expandOne_mem hmem
      obtain ⟨hgate, rfl⟩ := ruleStep_some hstep
      cases hsrc
      have hilt : i < ds.length := (List.getElem?_eq_some.mp hprev).1
      exact ⟨prev, info, by
        rw [List.getElem?_append_left (by simpa using hilt)]; exact hprev,
        hintree, hgate, rfl, rfl, rfl, rfl, rfl⟩
  · intro j dd p hj hsrc
    rcases Nat.lt_or_ge j 1 with hj1 | hj1
    · obtain rfl : j = 0 := by omega
      rw [show ([initData] : List DeinflectionData)[0]? = some initData from rfl]
        at hj
      cases Option.some.inj hj
      cases hsrc
    · rw [List.getElem?_eq_none_iff.mpr (by simpa using hj1)] at hj
      cases hj

/-- The root candidate reconstructs to the original word backwards. -/
theorem chars_rev_zero (word : List Char) (ds : List DeinflectionData)
    (h0 : ds[0]? = some initData) :
    Deinflections.chars_rev ⟨word, ds⟩ 0 = some word.reverse := by
  show (match ds[0]? with
    | none => none
    | some data => charsRevAux word ds 0 data 0) = some word.reverse
  rw [h0]
  show charsRevAux word ds 0 initData 0 = some word.reverse
  rw [charsRevAux]
  simp [initData]

/-- C3: for every word (and any rule table whose stored rules all carry a
non-empty reason bit, as the spec's configuration format prescribes), the
forest returned by `from_word` contains exactly one candidate whose
`reason_mask` is empty — the candidate at index 0, which is the unmodified
original word (`initData`: empty replacement, empty class and reason masks)
and whose reconstructed text equals the word. -/
theorem c3_unique_root_candidate (tree : Node Char Info) (fuel : Nat)
    (word : List Char)
    (hreason : ∀ info : Info, InTree info tree → info.reason ≠ 0) :
    ((fromWord tree fuel word).deinflections[0]? = some initData) ∧
    (∀ (j : Nat) (dd : DeinflectionData),
      (fromWord tree fuel word).deinflections[j]? = some dd →
      (dd.reasons = 0 ↔ j = 0)) ∧
    (fromWord tree fuel word).to_string 0 = some word := by
  have h := fromWordAux_invariant tree word
    (fun ds => ds[0]? = some initData ∧
      ∀ (j : Nat) (dd : DeinflectionData), ds[j]? = some dd →
        (dd.reasons = 0 ↔ j = 0))
    ?_ fuel [initData] 0 ?_
  · obtain ⟨h0, hall⟩ := h
    refine ⟨h0, hall, ?_⟩
    show (Deinflections.chars_rev ⟨word, _⟩ 0).map List.reverse = some word
    rw [chars_rev_zero word _ h0]
    simp
  · rintro ds i ⟨h0, hall⟩
    have hlen : 0 < ds.length := (List.getElem?_eq_some.mp h0).1
    refine ⟨by rw [List.getElem?_append_left (by simpa using hlen)]; exact h0, ?_⟩
    intro j dd hj
    rcases Nat.lt_or_ge j ds.length with hjlt | hjge
    · rw [List.getElem?_append_left (by simpa using hjlt)] at hj
      exact hall j dd hj
    · rw [List.getElem?_append_right hjge] at hj
      have hmem : dd ∈ expandOne tree word ds i := by
        obtain ⟨hlt, heq⟩ := List.getElem?_eq_some.mp hj
        exact heq ▸ List.getElem_mem hlt
      obtain ⟨prev, info, hprev, hintree, hstep⟩ := expandOne_mem hmem
      obtain ⟨-, rfl⟩ := ruleStep_some hstep
      constructor
      · intro hzero
        exact absurd hzero (nat_lor_ne_zero_right _ (hreason info hintree))
      · intro hj0
        omega
  · refine ⟨rfl, ?_⟩
    intro j dd hj
    rcases Nat.lt_or_ge j 1 with hj1 | hj1
    · obtain rfl : j = 0 := by omega
      cases Option.some.inj hj
      simp [initData]
    · rw [List.getElem?_eq_none_iff.mpr (by simpa using hj1)] at hj
      cases hj

/-- Witness for C3 on the empty rule table and the word `"ab"`. -/
theorem c3_witness :
    ((fromWord (treeNew : Node Char Info) 3 ['a', 'b']).deinflections[0]?
      = some initData) ∧
    (∀ (j : Nat) (dd : DeinflectionData),
      (fromWord (treeNew : Node Char Info) 3 ['a', 'b']).deinflections[j]?
        = some dd → (dd.reasons = 0 ↔ j = 0)) ∧
    (fromWord (treeNew : Node Char Info) 3 ['a', 'b']).to_string 0
      = some ['a', 'b'] :=
  c3_unique_root_candidate treeNew 3 ['a', 'b']
    (by
      intro info h
      cases h with
      | here hm => cases hm
      | child hc _ => cases hc)

/-- C5: in every forest state `from_word` can produce, a rule generates a
child of candidate `C` only if `C`'s class mask is empty or intersects the
rule's `rules_in`, and the child's class mask is exactly the generating
rule's `rules_out` — class masks never accumulate across generations. -/
theorem c5_class_masks (tree : Node Char Info) (fuel : Nat)
    (word : List Char) (j : Nat) (dd : DeinflectionData) (p : Nat)
    (hj : (fromWord tree fuel word).deinflections[j]? = some dd)
    (hsrc : dd.source = .deinflection p) :
    ∃ prev info, (fromWord tree fuel word).deinflections[p]? = some prev ∧
      InTree info tree ∧
      (prev.rules = 0 ∨ prev.rules &&& info.rule.rules_in ≠ 0) ∧
      dd.rules = info.rule.rules_out := by
  obtain ⟨prev, info, hp, hintree, hgate, -, -, -, hrules, -⟩ :=
    fromWordAux_child_spec tree word fuel j dd p hj hsrc
  exact ⟨prev, info, hp, hintree, hgate, hrules⟩

/-- Witness for C5: with the one-rule table `tree0` and the word `"ac"`,
candidate 1 is generated from the root candidate by `info0`. -/
theorem c5_witness :
    ∃ prev info,
      (fromWord tree0 2 ['a', 'c']).deinflections[0]? = some prev ∧
      InTree info tree0 ∧
      (prev.rules = 0 ∨ prev.rules &&& info.rule.rules_in ≠ 0) ∧
      (⟨.deinflection 0, 1, ['x'], 1, 2, 1⟩ : DeinflectionData).rules
        = info.rule.rules_out :=
  c5_class_masks tree0 2 ['a', 'c'] 1 ⟨.deinflection 0, 1, ['x'], 1, 2, 1⟩ 0
    (by decide) (by decide)

/-- C6: in every forest state `from_word` can produce, every non-root
candidate's reason mask is the bitwise union of its parent's reason mask and
its generating rule's reason; consequently the parent's reason bits are all
contained in the child's (masks only grow along parent→child paths, bits are
never cleared). -/
theorem c6_reason_masks (tree : Node Char Info) (fuel : Nat)
    (word : List Char) (j : Nat) (dd : DeinflectionData) (p : Nat)
    (hj : (fromWord tree fuel word).deinflections[j]? = some dd)
    (hsrc : dd.source = .deinflection p) :
    ∃ prev info, (fromWord tree fuel word).deinflections[p]? = some prev ∧
      InTree info tree ∧
      dd.reasons = prev.reasons ||| info.reason ∧
      prev.reasons &&& dd.reasons = prev.reasons := by
  obtain ⟨prev, info, hp, hintree, -, -, -, -, -, hreasons⟩ :=
    fromWordAux_child_spec tree word fuel j dd p hj hsrc
  exact ⟨prev, info, hp, hintree, hreasons, by rw [hreasons, nat_and_or_self]⟩

/-- Witness for C6 on the same concrete forest as C5's witness. -/
theorem c6_witness :
    ∃ prev info,
      (fromWord tree0 2 ['a', 'c']).deinflections[0]? = some prev ∧
      InTree info tree0 ∧
      (⟨.deinflection 0, 1, ['x'], 1, 2, 1⟩ : DeinflectionData).reasons
        = prev.reasons ||| info.reason ∧
      prev.reasons &&& (⟨.deinflection 0, 1, ['x'], 1, 2, 1⟩
        : DeinflectionData).reasons = prev.reasons :=
  c6_reason_masks tree0 2 ['a', 'c'] 1 ⟨.deinflection 0, 1, ['x'], 1, 2, 1⟩ 0
    (by decide) (by decide)

/-- C9: `from_word` is deterministic — two runs on the same word (and table
and fuel) give forests with the same number of candidates and, at every
index, the same candidate record, field for field.  In this pure embedding
the whole `from_word` pipeline is a mathematical function of its inputs
(there is no hidden state, randomness, or iteration-order freedom left), so
structural identity of repeated calls is definitional. -/
theorem c9_from_word_deterministic (tree : Node Char Info) (fuel : Nat)
    (word : List Char) :
    (fromWord tree fuel word).deinflections.length
      = (fromWord tree fuel word).deinflections.length ∧
    ∀ j : Nat, (fromWord tree fuel word).deinflections[j]?
      = (fromWord tree fuel word).deinflections[j]? :=
  ⟨rfl, fun _ => rfl⟩

/-! ## C8: invalid candidate handles -/

/-- C8: accessing a candidate through an invalid handle (an index at or
beyond the forest's length) via `data`, `chars_rev` or `to_string` hits the
out-of-bounds panic — modelled as `none` — and never yields a value. -/
theorem c8_invalid_handle_panics (d : Deinflections) (i : Nat)
    (h : d.deinflections.length ≤ i) :
    d.data i = none ∧ d.chars_rev i = none ∧ d.to_string i = none := by
  have hnone : d.deinflections[i]? = none := List.getElem?_eq_none_iff.mpr h
  have hcr : d.chars_rev i = none := by
    show (match d.deinflections[i]? with
      | none => none
      | some data => charsRevAux d.source d.deinflections i data 0) = none
    rw [hnone]
  refine ⟨hnone, hcr, ?_⟩
  show (d.chars_rev i).map List.reverse = none
  rw [hcr]
  rfl

/-- Witness for C8: index 5 is out of bounds in the three-candidate chain
forest. -/
theorem c8_witness :
    chainForest.data 5 = none ∧ chainForest.chars_rev 5 = none ∧
    chainForest.to_string 5 = none :=
  c8_invalid_handle_panics chainForest 5 (by decide)

/-! ## C10: sorted children and binary-search lookup -/

/-- C10: after any sequence of `Tree::insert` calls starting from
`Tree::new`, every node's children vector is sorted in strictly ascending
key order with no duplicate keys (the `WFNode` invariant), and on any node
satisfying that invariant `get_child_index`'s binary search succeeds exactly
when a child with the given key exists — the invariant the streaming query's
child lookup relies on. -/
theorem c10_insert_sorted_binary_search [LinearOrder K] [Inhabited K]
    (rules : List (List K × T)) (n : Node K T) (hn : WFNode n) (c : K) :
    WFNode (buildTree rules) ∧
    ((∃ i, n.get_child_index c = .ok i) ↔ ∃ ch ∈ n.children, ch.c = c) := by
  refine ⟨buildTree_wf rules, ?_, ?_⟩
  · rintro ⟨i, hok⟩
    obtain ⟨ch, hch, hkey⟩ := get_child_index_ok hn hok
    obtain ⟨hi, rfl⟩ := List.getElem?_eq_some.mp hch
    exact ⟨_, List.getElem_mem hi, hkey⟩
  · rintro ⟨ch, hmem, hkey⟩
    cases hres : n.get_child_index c with
    | ok i => exact ⟨i, rfl⟩
    | error i => exact absurd hkey (get_child_index_error_not_mem hn hres ch hmem)

/-- Witness for C10 at a concrete build: the table inserts the reversed
suffix `"ba"` (so the root has one child keyed `'b'`), the invariant holds,
and the lookup of `'b'` succeeds. -/
theorem c10_witness :
    WFNode (buildTree [((['b', 'a'] : List Char), (0 : Nat))]) ∧
    ((∃ i, (buildTree [((['b', 'a'] : List Char), (0 : Nat))]).get_child_index 'b'
        = .ok i) ↔
      ∃ ch ∈ (buildTree [((['b', 'a'] : List Char), (0 : Nat))]).children,
        ch.c = 'b') := by
  have h1 := c10_insert_sorted_binary_search
    [((['b', 'a'] : List Char), (0 : Nat))] treeNew
    (WFNode.mk _ [] [] (by simp) (by simp)) 'b'
  exact c10_insert_sorted_binary_search
    [((['b', 'a'] : List Char), (0 : Nat))]
    (buildTree [((['b', 'a'] : List Char), (0 : Nat))]) h1.1 'b'

/-! ## C7: termination of the worklist loop -/

theorem charsRevAux_original (word : List Char) (ds : List DeinflectionData)
    (fuel : Nat) (dd : DeinflectionData) (skip : Nat)
    (h : dd.source = .original) :
    charsRevAux word ds fuel dd skip
      = some (dd.replace_with.reverse.drop skip ++
          word.reverse.drop
            (dd.replace_from_back + (skip - dd.replace_with_chars))) := by
  obtain ⟨src, rfb, rw, rwc, rl, rs⟩ := dd
  cases h
  cases fuel <;> rfl

theorem charsRevAux_deinflection_zero (word : List Char)
    (ds : List DeinflectionData) (dd : DeinflectionData) (skip p : Nat)
    (h : dd.source = .deinflection p) :
    charsRevAux word ds 0 dd skip = none := by
  obtain ⟨src, rfb, rw, rwc, rl, rs⟩ := dd
  cases h
  rfl

theorem charsRevAux_deinflection_succ (word : List Char)
    (ds : List DeinflectionData) (fuel : Nat) (dd : DeinflectionData)
    (skip p : Nat) (h : dd.source = .deinflection p) :
    charsRevAux word ds (fuel + 1) dd skip
      = (ds[p]?).bind (fun parent =>
          (charsRevAux word ds fuel parent
            (dd.replace_from_back + (skip - dd.replace_with_chars))).map
            (dd.replace_with.reverse.drop skip ++ ·)) := by
  obtain ⟨src, rfb, rw, rwc, rl, rs⟩ := dd
  cases h
  have hm : charsRevAux word ds (fuel + 1)
        ⟨.deinflection p, rfb, rw, rwc, rl, rs⟩ skip
      = match ds[p]? with
        | none => none
        | some parent =>
          (charsRevAux word ds fuel parent (rfb + (skip - rwc))).map
            (rw.reverse.drop skip ++ ·) := rfl
  rw [hm]
  cases ds[p]? <;> rfl

/-- More fuel never changes a successful backward reconstruction. -/
theorem charsRevAux_mono (word : List Char) (ds : List DeinflectionData) :
    ∀ (fuel : Nat) (dd : DeinflectionData) (skip : Nat) (l : List Char)
      (fuel' : Nat), fuel ≤ fuel' →
      charsRevAux word ds fuel dd skip = some l →
      charsRevAux word ds fuel' dd skip = some l := by
  intro fuel
  induction fuel with
  | zero =>
    intro dd skip l fuel' hle h
    cases hsrc : dd.source with
    | original =>
      rw [charsRevAux_original word ds 0 dd skip hsrc] at h
      rw [charsRevAux_original word ds fuel' dd skip hsrc]
      exact h
    | deinflection p =>
      rw [charsRevAux_deinflection_zero word ds dd skip p hsrc] at h
      cases h
  | succ fuel ih =>
    intro dd skip l fuel' hle h
    cases hsrc : dd.source with
    | original =>
      rw [charsRevAux_original word ds (fuel + 1) dd skip hsrc] at h
      rw [charsRevAux_original word ds fuel' dd skip hsrc]
      exact h
    | deinflection p =>
      obtain ⟨fuel'', rfl⟩ : ∃ f, fuel' = f + 1 := ⟨fuel' - 1, by omega⟩
      rw [charsRevAux_deinflection_succ word ds fuel dd skip p hsrc] at h
      rw [charsRevAux_deinflection_succ word ds fuel'' dd skip p hsrc]
      cases hp : ds[p]? with
      | none =>
        rw [hp] at h
        simp at h
      | some parent =>
        rw [hp, Option.some_bind] at h
        rw [Option.some_bind]
        cases haux : charsRevAux word ds fuel parent
            (dd.replace_from_back + (skip - dd.replace_with_chars)) with
        | none => simp [haux] at h
        | some l0 =>
          rw [haux] at h
          rw [ih parent _ l0 fuel'' (by omega) haux]
          exact h

/-- Appending candidates never changes an existing candidate's successful
backward reconstruction (the chain only reads entries that exist). -/
theorem charsRevAux_append (word : List Char) (ds ext : List DeinflectionData) :
    ∀ (fuel : Nat) (dd : DeinflectionData) (skip : Nat) (l : List Char),
      charsRevAux word ds fuel dd skip = some l →
      charsRevAux word (ds ++ ext) fuel dd skip = some l := by
  intro fuel
  induction fuel with
  | zero =>
    intro dd skip l h
    cases hsrc : dd.source with
    | original =>
      rw [charsRevAux_original word ds 0 dd skip hsrc] at h
      rw [charsRevAux_original word (ds ++ ext) 0 dd skip hsrc]
      exact h
    | deinflection p =>
      rw [charsRevAux_deinflection_zero word ds dd skip p hsrc] at h
      cases h
  | succ fuel ih =>
    intro dd skip l h
    cases hsrc : dd.source with
    | original =>
      rw [charsRevAux_original word ds (fuel + 1) dd skip hsrc] at h
      rw [charsRevAux_original word (ds ++ ext) (fuel + 1) dd skip hsrc]
      exact h
    | deinflection p =>
      rw [charsRevAux_deinflection_succ word ds fuel dd skip p hsrc] at h
      rw [charsRevAux_deinflection_succ word (ds ++ ext) fuel dd skip p hsrc]
      cases hp : ds[p]? with
      | none =>
        rw [hp] at h
        simp at h
      | some parent =>
        rw [hp, Option.some_bind] at h
        have hplen : p < ds.length := (List.getElem?_eq_some.mp hp).1
        rw [List.getElem?_append_left (by simpa using hplen), hp,
          Option.some_bind]
        cases haux : charsRevAux word ds fuel parent
            (dd.replace_from_back + (skip - dd.replace_with_chars)) with
        | none => simp [haux] at h
        | some l0 =>
          rw [haux] at h
          rw [ih parent _ l0 haux]
          exact h

/-- In a forest whose parent links strictly decrease, reconstruction from
candidate `j` succeeds with any fuel of at least `j`. -/
theorem charsRevAux_isSome (word : List Char) (ds : List DeinflectionData)
    (hwf : ∀ (j : Nat) (dd : DeinflectionData), ds[j]? = some dd →
      ∀ p, dd.source = .deinflection p → p < j) :
    ∀ (j : Nat) (dd : DeinflectionData), ds[j]? = some dd →
      ∀ (skip fuel : Nat), j ≤ fuel →
      ∃ l, charsRevAux word ds fuel dd skip = some l := by
  intro j
  induction j using Nat.strong_induction_on with
  | _ j ih =>
    intro dd hdd skip fuel hle
    cases hsrc : dd.source with
    | original => exact ⟨_, charsRevAux_original word ds fuel dd skip hsrc⟩
    | deinflection p =>
      have hp : p < j := hwf j dd hdd p hsrc
      have hjlen : j < ds.length := (List.getElem?_eq_some.mp hdd).1
      obtain ⟨parent, hparent⟩ : ∃ parent, ds[p]? = some parent := by
        cases hpp : ds[p]? with
        | some parent => exact ⟨parent, rfl⟩
        | none =>
          rw [List.getElem?_eq_none_iff] at hpp
          omega
      obtain ⟨fuel'', rfl⟩ : ∃ f, fuel = f + 1 := ⟨fuel - 1, by omega⟩
      obtain ⟨l0, hl0⟩ := ih p hp parent hparent
        (dd.replace_from_back + (skip - dd.replace_with_chars)) fuel''
        (by omega)
      refine ⟨dd.replace_with.reverse.drop skip ++ l0, ?_⟩
      rw [charsRevAux_deinflection_succ word ds fuel'' dd skip p hsrc,
        hparent, Option.some_bind, hl0]
      rfl

/-- Dropping from the reversed-stream head commutes with reconstruction:
entering a layer with `skip` pending characters drops exactly `skip`
characters from that layer's full backward stream.  Needs the stored
character counts to match the stored texts. -/
theorem drop_skip_piece (rw : List Char) (rwc : Nat) (h : rwc = rw.length)
    (rfb skip : Nat) (L : List Char) :
    List.drop skip (rw.reverse ++ L.drop rfb)
      = rw.reverse.drop skip ++ L.drop (rfb + (skip - rwc)) := by
  rw [List.drop_append_eq_append_drop, List.drop_drop]
  congr 2
  rw [List.length_reverse]
  omega

theorem charsRevAux_drop (word : List Char) (ds : List DeinflectionData)
    (hcons : ∀ dd ∈ ds, dd.replace_with_chars = dd.replace_with.length) :
    ∀ (fuel : Nat) (dd : DeinflectionData),
      dd.replace_with_chars = dd.replace_with.length →
      ∀ (skip : Nat),
        charsRevAux word ds fuel dd skip
          = (charsRevAux word ds fuel dd 0).map (List.drop skip) := by
  intro fuel
  induction fuel with
  | zero =>
    intro dd hdd skip
    cases hsrc : dd.source with
    | original =>
      rw [charsRevAux_original word ds 0 dd skip hsrc,
        charsRevAux_original word ds 0 dd 0 hsrc, Option.map_some']
      rw [List.drop_zero, Nat.zero_sub, Nat.add_zero]
      exact congrArg some (drop_skip_piece _ _ hdd _ _ _).symm
    | deinflection p =>
      rw [charsRevAux_deinflection_zero word ds dd skip p hsrc,
        charsRevAux_deinflection_zero word ds dd 0 p hsrc]
      rfl
  | succ fuel ih =>
    intro dd hdd skip
    cases hsrc : dd.source with
    | original =>
      rw [charsRevAux_original word ds (fuel + 1) dd skip hsrc,
        charsRevAux_original word ds (fuel + 1) dd 0 hsrc, Option.map_some']
      rw [List.drop_zero, Nat.zero_sub, Nat.add_zero]
      exact congrArg some (drop_skip_piece _ _ hdd _ _ _).symm
    | deinflection p =>
      rw [charsRevAux_deinflection_succ word ds fuel dd skip p hsrc,
        charsRevAux_deinflection_succ word ds fuel dd 0 p hsrc]
      cases hp : ds[p]? with
      | none => rfl
      | some parent =>
        rw [Option.some_bind, Option.some_bind]
        have hpcons : parent.replace_with_chars = parent.replace_with.length := by
          obtain ⟨hplen, heq⟩ := List.getElem?_eq_some.mp hp
          have := List.getElem_mem hplen
          rw [heq] at this
          exact hcons parent this
        rw [ih parent hpcons (dd.replace_from_back + (skip - dd.replace_with_chars)),
          ih parent hpcons (dd.replace_from_back + (0 - dd.replace_with_chars))]
        cases hbase : charsRevAux word ds fuel parent 0 with
        | none => rfl
        | some L =>
          rw [Option.map_some', Option.map_some', Option.map_some',
            Option.map_some', Option.map_some']
          congr 1
          rw [Nat.zero_sub, Nat.add_zero, List.drop_zero]
          exact (drop_skip_piece _ _ hdd _ _ _).symm

/-- On a depth-consistent tree, every yielded rule's `kana_in_chars` lies
between the start depth and the number of source characters available —
a yielded match never consumes more characters than the stream holds. -/
theorem get_submatches_depth :
    ∀ (cs : List Char) (n : Node Char Info) (d : Nat), DepthInv n d →
      ∀ info ∈ n.get_submatches cs,
        d ≤ info.kana_in_chars ∧ info.kana_in_chars ≤ d + cs.length := by
  intro cs
  induction cs with
  | nil =>
    intro n d hd info hinfo
    cases hd with
    | mk c children ms d hms hch =>
      rw [show (Node.mk c children ms).get_submatches ([] : List Char) = ms
        from rfl] at hinfo
      rw [hms info hinfo]
      omega
  | cons k cs' ih =>
    intro n d hd info hinfo
    rw [get_submatches_cons] at hinfo
    rcases List.mem_append.mp hinfo with h | h
    · cases hd with
      | mk c children ms d hms hch =>
        have := hms info (by simpa using h)
        omega
    · cases hcl : childLookup n k with
      | none =>
        rw [hcl] at h
        cases h
      | some ch =>
        rw [hcl] at h
        simp only [Option.map_some', Option.getD_some] at h
        have hchd : DepthInv ch (d + 1) := by
          cases hd with
          | mk c children ms d hms hch =>
            exact hch ch (by simpa using childLookup_mem hcl)
        have := ih ch (d + 1) hchd info h
        simp only [List.length_cons]
        omega

/-- One `get_submatches` call yields at most the total number of rules in
the tree. -/
theorem get_submatches_count [LinearOrder K] :
    ∀ (cs : List K) (n : Node K T),
      (n.get_submatches cs).length ≤ totalInfos n := by
  intro cs
  induction cs with
  | nil =>
    intro n
    obtain ⟨c, children, ms⟩ := n
    rw [totalInfos]
    rw [show (Node.mk c children ms).get_submatches ([] : List K) = ms
      from rfl]
    omega
  | cons k cs' ih =>
    intro n
    rw [get_submatches_cons]
    obtain ⟨c, children, ms⟩ := n
    rw [totalInfos, List.length_append]
    cases hcl : childLookup (Node.mk c children ms) k with
    | none =>
      simp only [Node.matches_mk, Option.map_none', Option.getD_none,
        List.length_nil]
      omega
    | some ch =>
      simp only [Node.matches_mk, Option.map_some', Option.getD_some]
      have hmem : ch ∈ children := by simpa using childLookup_mem hcl
      have hsum : totalInfos ch
          ≤ (children.attach.map (fun x => totalInfos x.1)).sum := by
        refine List.single_le_sum (fun x _ => Nat.zero_le x) _ ?_
        exact List.mem_map.mpr ⟨⟨ch, hmem⟩, List.mem_attach _ _, rfl⟩
      have := ih ch
      omega

theorem WFForest_init : WFForest [initData] := by
  intro j dd hj
  rcases Nat.lt_or_ge j 1 with hj1 | hj1
  · obtain rfl : j = 0 := by omega
    cases Option.some.inj hj
    exact ⟨rfl, fun p hp => by cases hp⟩
  · rw [List.getElem?_eq_none_iff.mpr (by simpa using hj1)] at hj
    cases hj

/-- One worklist step keeps the forest well-formed, provided the table's
stored output counts are accurate. -/
theorem WFForest_step (tree : Node Char Info) (word : List Char)
    (hout : ∀ info : Info, InTree info tree →
      info.kana_out_chars = info.rule.kana_out.length)
    {ds : List DeinflectionData} (hwf : WFForest ds) (i : Nat) :
    WFForest (ds ++ expandOne tree word ds i) := by
  intro j dd hj
  rcases Nat.lt_or_ge j ds.length with hjlt | hjge
  · rw [List.getElem?_append_left (by simpa using hjlt)] at hj
    exact hwf j dd hj
  · rw [List.getElem?_append_right hjge] at hj
    have hmem : dd ∈ expandOne tree word ds i := by
      obtain ⟨hlt, heq⟩ := List.getElem?_eq_some.mp hj
      exact heq ▸ List.getElem_mem hlt
    obtain ⟨prev, info, hprev, hintree, hstep⟩ := expandOne_mem hmem
    obtain ⟨-, rfl⟩ := ruleStep_some hstep
    have hilt : i < ds.length := (List.getElem?_eq_some.mp hprev).1
    refine ⟨hout info hintree, ?_⟩
    intro p hp
    cases hp
    omega

theorem chars_rev_eq_aux (word : List Char) (ds : List DeinflectionData)
    (j : Nat) (dd : DeinflectionData) (hdd : ds[j]? = some dd) :
    Deinflections.chars_rev ⟨word, ds⟩ j = charsRevAux word ds j dd 0 := by
  show (match ds[j]? with
    | none => none
    | some data => charsRevAux word ds j data 0) = _
  rw [hdd]

/-- In a well-formed forest every valid candidate reconstructs. -/
theorem chars_rev_isSome_of_wf (word : List Char) (ds : List DeinflectionData)
    (hwf : WFForest ds) (j : Nat) (dd : DeinflectionData)
    (hdd : ds[j]? = some dd) :
    ∃ l, Deinflections.chars_rev ⟨word, ds⟩ j = some l := by
  obtain ⟨l, hl⟩ := charsRevAux_isSome word ds
    (fun j dd hdd p hp => (hwf j dd hdd).2 p hp) j dd hdd 0 j le_rfl
  exact ⟨l, by rw [chars_rev_eq_aux word ds j dd hdd]; exact hl⟩

/-- Appending candidates changes neither the reconstruction nor the length
of an existing candidate. -/
theorem chars_rev_append (word : List Char) (ds ext : List DeinflectionData)
    (hwf : WFForest ds) (j : Nat) (dd : DeinflectionData)
    (hdd : ds[j]? = some dd) :
    Deinflections.chars_rev ⟨word, ds ++ ext⟩ j
      = Deinflections.chars_rev ⟨word, ds⟩ j := by
  obtain ⟨l, hl⟩ := chars_rev_isSome_of_wf word ds hwf j dd hdd
  have hjlt : j < ds.length := (List.getElem?_eq_some.mp hdd).1
  have hl' : charsRevAux word ds j dd 0 = some l := by
    rw [chars_rev_eq_aux word ds j dd hdd] at hl
    exact hl
  rw [hl, chars_rev_eq_aux word (ds ++ ext) j dd
    (by rw [List.getElem?_append_left (by simpa using hjlt)]; exact hdd)]
  exact charsRevAux_append word ds ext j dd 0 l hl'

theorem candLen_append (word : List Char) (ds ext : List DeinflectionData)
    (hwf : WFForest ds) (j : Nat) (dd : DeinflectionData)
    (hdd : ds[j]? = some dd) :
    candLen word (ds ++ ext) j = candLen word ds j := by
  rw [candLen, candLen, chars_rev_append word ds ext hwf j dd hdd]

/-- Like `expandOne_mem`, but keeping the raw submatch membership (for the
depth bound). -/
theorem expandOne_mem_full {tree : Node Char Info} {word : List Char}
    {ds : List DeinflectionData} {i : Nat} {dd : DeinflectionData}
    (h : dd ∈ expandOne tree word ds i) :
    ∃ prev info, ds[i]? = some prev ∧
      info ∈ tree.get_submatches
        ((Deinflections.chars_rev ⟨word, ds⟩ i).getD []) ∧
      ruleStep prev i info = some dd := by
  rw [expandOne] at h
  split at h
  · cases h
  · next prev hprev =>
    obtain ⟨info, hinfo, hstep⟩ := List.mem_filterMap.mp h
    exact ⟨prev, info, hprev, hinfo, hstep⟩

/-- One candidate spawns at most `totalInfos tree` children. -/
theorem expandOne_count (tree : Node Char Info) (word : List Char)
    (ds : List DeinflectionData) (i : Nat) :
    (expandOne tree word ds i).length ≤ totalInfos tree := by
  rw [expandOne]
  split
  · exact Nat.zero_le _
  · exact le_trans (List.length_filterMap_le _ _) (get_submatches_count _ _)

/-- The central step fact: every child appended while processing candidate
`i` hangs off `i` and reconstructs to a strictly shorter text — by at least
one character — than its parent, provided every table rule net-consumes at
least one character and the stored counts are accurate. -/
theorem expand_child_facts (tree : Node Char Info) (word : List Char)
    (hdepth : DepthInv tree 0)
    (hout : ∀ info : Info, InTree info tree →
      info.kana_out_chars = info.rule.kana_out.length)
    (hnet : ∀ info : Info, InTree info tree →
      info.kana_out_chars + 1 ≤ info.kana_in_chars)
    {ds : List DeinflectionData} (hwf : WFForest ds) (i : Nat)
    (j' : Nat) (dd' : DeinflectionData) (hge : ds.length ≤ j')
    (hj' : (ds ++ expandOne tree word ds i)[j']? = some dd') :
    dd'.source = .deinflection i ∧
    candLen word (ds ++ expandOne tree word ds i) j' + 1 ≤ candLen word ds i := by
  have hj'2 := hj'
  rw [List.getElem?_append_right hge] at hj'2
  have hmem : dd' ∈ expandOne tree word ds i := by
    obtain ⟨hlt, heq⟩ := List.getElem?_eq_some.mp hj'2
    exact heq ▸ List.getElem_mem hlt
  obtain ⟨prev, info, hprev, hsubm, hstep⟩ := expandOne_mem_full hmem
  obtain ⟨-, rfl⟩ := ruleStep_some hstep
  refine ⟨rfl, ?_⟩
  have hilt : i < ds.length := (List.getElem?_eq_some.mp hprev).1
  -- the parent's reconstruction
  obtain ⟨L, hL⟩ := chars_rev_isSome_of_wf word ds hwf i prev hprev
  have hLaux : charsRevAux word ds i prev 0 = some L := by
    rw [chars_rev_eq_aux word ds i prev hprev] at hL
    exact hL
  have hstream : (Deinflections.chars_rev ⟨word, ds⟩ i).getD [] = L := by
    rw [hL]
    rfl
  have hclenp : candLen word ds i = L.length := by
    rw [candLen, hL]
    rfl
  -- the depth bound: the rule never consumes more than the stream holds
  have hdep := get_submatches_depth _ tree 0 hdepth info (hstream ▸ hsubm)
  have hkin : info.kana_in_chars ≤ L.length := by
    have h2 := hdep.2
    omega
  -- the child's reconstruction
  have hwf' : WFForest (ds ++ expandOne tree word ds i) :=
    WFForest_step tree word hout hwf i
  have hcons' : ∀ dd ∈ ds ++ expandOne tree word ds i,
      dd.replace_with_chars = dd.replace_with.length := by
    intro dd hdd
    obtain ⟨j0, hj0, heq⟩ := List.mem_iff_getElem.mp hdd
    exact (hwf' j0 dd (heq ▸ List.getElem?_eq_some.mpr ⟨hj0, rfl⟩)).1
  obtain ⟨f, rfl⟩ : ∃ f, j' = f + 1 := ⟨j' - 1, by omega⟩
  have hif : i ≤ f := by omega
  have hds'i : (ds ++ expandOne tree word ds i)[i]? = some prev := by
    rw [List.getElem?_append_left (by simpa using hilt)]
    exact hprev
  have hLext : charsRevAux word (ds ++ expandOne tree word ds i) f prev 0
      = some L :=
    charsRevAux_mono word _ i prev 0 L f hif
      (charsRevAux_append word ds _ i prev 0 L hLaux)
  have hchild : Deinflections.chars_rev ⟨word, ds ++ expandOne tree word ds i⟩
      (f + 1) = some (info.rule.kana_out.reverse ++
        L.drop info.kana_in_chars) := by
    rw [chars_rev_eq_aux word _ (f + 1) _ hj',
      charsRevAux_deinflection_succ word _ f _ 0 i rfl, hds'i,
      Option.some_bind]
    have hdrop := charsRevAux_drop word (ds ++ expandOne tree word ds i)
      hcons' f prev
      (hcons' prev (by
        obtain ⟨hlt, heq⟩ := List.getElem?_eq_some.mp hds'i
        exact heq ▸ List.getElem_mem hlt))
    simp only [Nat.zero_sub, Nat.add_zero]
    rw [hdrop info.kana_in_chars, hLext, Option.map_some', Option.map_some',
      List.drop_zero]
  rw [candLen, hchild, hclenp]
  have hko := hout info (get_submatches_inTree _ _ _ (hstream ▸ hsubm))
  have hnet' := hnet info (get_submatches_inTree _ _ _ (hstream ▸ hsubm))
  simp only [Option.getD_some, List.length_append, List.length_reverse,
    List.length_drop]
  omega

/-- One worklist step strictly decreases the termination potential. -/
theorem potential_step (tree : Node Char Info) (word : List Char)
    (hdepth : DepthInv tree 0)
    (hout : ∀ info : Info, InTree info tree →
      info.kana_out_chars = info.rule.kana_out.length)
    (hnet : ∀ info : Info, InTree info tree →
      info.kana_out_chars + 1 ≤ info.kana_in_chars)
    {ds : List DeinflectionData} (hwf : WFForest ds) (i : Nat)
    (hi : i < ds.length) :
    potential (totalInfos tree) word (ds ++ expandOne tree word ds i) (i + 1)
      + 1 ≤ potential (totalInfos tree) word ds i := by
  rw [potential, potential]
  have hsplit : ds.length - i = (ds.length - (i + 1)) + 1 := by omega
  rw [hsplit, List.range'_succ, List.map_cons, List.sum_cons]
  have hlen' : (ds ++ expandOne tree word ds i).length - (i + 1)
      = (expandOne tree word ds i).length + (ds.length - (i + 1)) := by
    rw [List.length_append]
    omega
  rw [hlen', ← List.range'_append_1, List.map_append, List.sum_append]
  have hstart : i + 1 + (ds.length - (i + 1)) = ds.length := by omega
  rw [hstart]
  -- the already-present unprocessed candidates keep their lengths
  have hold : (List.range' (i + 1) (ds.length - (i + 1))).map
        (fun j => (totalInfos tree + 1)
          ^ candLen word (ds ++ expandOne tree word ds i) j)
      = (List.range' (i + 1) (ds.length - (i + 1))).map
        (fun j => (totalInfos tree + 1) ^ candLen word ds j) := by
    refine List.map_congr_left ?_
    intro j hj
    obtain ⟨k, hk, rfl⟩ := List.mem_range'.mp hj
    have hjlt : i + 1 + 1 * k < ds.length := by omega
    obtain ⟨dd, hdd⟩ : ∃ dd, ds[i + 1 + 1 * k]? = some dd := by
      cases hg : ds[i + 1 + 1 * k]? with
      | some dd => exact ⟨dd, rfl⟩
      | none =>
        rw [List.getElem?_eq_none_iff] at hg
        omega
    rw [candLen_append word ds _ hwf _ dd hdd]
  rw [hold]
  -- the new children are all at least one character shorter than parent i
  have hnew : ((List.range' ds.length (expandOne tree word ds i).length).map
        (fun j => (totalInfos tree + 1)
          ^ candLen word (ds ++ expandOne tree word ds i) j)).sum + 1
      ≤ (totalInfos tree + 1) ^ candLen word ds i := by
    by_cases hm0 : (expandOne tree word ds i).length = 0
    · rw [hm0]
      simp only [List.range'_zero, List.map_nil, List.sum_nil]
      exact Nat.one_le_pow _ _ (by omega)
    · have hchildren : ∀ j ∈ List.range' ds.length (expandOne tree word ds i).length,
          candLen word (ds ++ expandOne tree word ds i) j + 1
            ≤ candLen word ds i := by
        intro j hj
        obtain ⟨k, hk, rfl⟩ := List.mem_range'.mp hj
        obtain ⟨dd', hdd'⟩ : ∃ dd',
            (ds ++ expandOne tree word ds i)[ds.length + 1 * k]? = some dd' := by
          cases hg : (ds ++ expandOne tree word ds i)[ds.length + 1 * k]? with
          | some dd' => exact ⟨dd', rfl⟩
          | none =>
            rw [List.getElem?_eq_none_iff, List.length_append] at hg
            omega
        exact (expand_child_facts tree word hdepth hout hnet hwf i _ dd'
          (by omega) hdd').2
      -- the parent's length is positive, since a child exists
      have hclpos : 1 ≤ candLen word ds i := by
        have h0 := hchildren ds.length (by
          rw [List.mem_range']
          exact ⟨0, by omega, by omega⟩)
        omega
      have hbound : ∀ x ∈ (List.range' ds.length
            (expandOne tree word ds i).length).map
            (fun j => (totalInfos tree + 1)
              ^ candLen word (ds ++ expandOne tree word ds i) j),
          x ≤ (totalInfos tree + 1) ^ (candLen word ds i - 1) := by
        intro x hx
        obtain ⟨j, hj, rfl⟩ := List.mem_map.mp hx
        refine Nat.pow_le_pow_right (by omega) ?_
        have := hchildren j hj
        omega
      have hsum := List.sum_le_card_nsmul _ _ hbound
      rw [List.length_map, List.length_range'] at hsum
      have hmB : (expandOne tree word ds i).length ≤ totalInfos tree :=
        expandOne_count tree word ds i
      have hP1 : 1 ≤ (totalInfos tree + 1) ^ (candLen word ds i - 1) :=
        Nat.one_le_pow _ _ (by omega)
      have hsm : (expandOne tree word ds i).length
            • ((totalInfos tree + 1) ^ (candLen word ds i - 1))
          = (expandOne tree word ds i).length
            * ((totalInfos tree + 1) ^ (candLen word ds i - 1)) := rfl
      rw [hsm] at hsum
      have hmul : (expandOne tree word ds i).length
            * ((totalInfos tree + 1) ^ (candLen word ds i - 1))
          ≤ totalInfos tree
            * ((totalInfos tree + 1) ^ (candLen word ds i - 1)) :=
        Nat.mul_le_mul_right _ hmB
      have hpow : (totalInfos tree + 1) ^ candLen word ds i
          = (totalInfos tree + 1) ^ (candLen word ds i - 1)
            * (totalInfos tree + 1) := by
        rw [← pow_succ]
        congr 1
        omega
      have hexp : (totalInfos tree + 1) ^ (candLen word ds i - 1)
            * (totalInfos tree + 1)
          = totalInfos tree
              * ((totalInfos tree + 1) ^ (candLen word ds i - 1))
            + (totalInfos tree + 1) ^ (candLen word ds i - 1) := by
        ring
      omega
  omega

/-- With fuel at least the potential, the worklist loop finishes: the loop
counter catches up with the candidate list. -/
theorem loop_terminates (tree : Node Char Info) (word : List Char)
    (hdepth : DepthInv tree 0)
    (hout : ∀ info : Info, InTree info tree →
      info.kana_out_chars = info.rule.kana_out.length)
    (hnet : ∀ info : Info, InTree info tree →
      info.kana_out_chars + 1 ≤ info.kana_in_chars) :
    ∀ (bound : Nat) (ds : List DeinflectionData) (i : Nat), WFForest ds →
      potential (totalInfos tree) word ds i ≤ bound →
      ∀ fuel, bound ≤ fuel →
      (fromWordAux tree word fuel ds i).1.length
        ≤ (fromWordAux tree word fuel ds i).2 := by
  intro bound
  induction bound using Nat.strong_induction_on with
  | _ bound ih =>
    intro ds i hwf hpot fuel hfuel
    rcases Nat.lt_or_ge i ds.length with hi | hi
    · have hdec := potential_step tree word hdepth hout hnet hwf i hi
      have hpos : 1 ≤ potential (totalInfos tree) word ds i := by omega
      obtain ⟨f, rfl⟩ : ∃ f, fuel = f + 1 := ⟨fuel - 1, by omega⟩
      rw [fromWordAux, if_pos hi]
      exact ih (bound - 1) (by omega) _ _
        (WFForest_step tree word hout hwf i) (by omega) f (by omega)
    · cases fuel with
      | zero => simpa using hi
      | succ f =>
        rw [fromWordAux, if_neg (by omega)]
        simpa using hi

/-- Once the loop has finished, extra fuel changes nothing. -/
theorem fromWordAux_done_stable (tree : Node Char Info) (word : List Char) :
    ∀ (fuel : Nat) (ds : List DeinflectionData) (i : Nat),
      (fromWordAux tree word fuel ds i).1.length
        ≤ (fromWordAux tree word fuel ds i).2 →
      ∀ g, fromWordAux tree word (fuel + g) ds i
        = fromWordAux tree word fuel ds i := by
  intro fuel
  induction fuel with
  | zero =>
    intro ds i hdone g
    cases g with
    | zero => rfl
    | succ g' =>
      show fromWordAux tree word (0 + (g' + 1)) ds i = (ds, i)
      have hz : 0 + (g' + 1) = g' + 1 := by omega
      rw [hz, fromWordAux,
        if_neg (Nat.not_lt.mpr (show ds.length ≤ i from hdone))]
  | succ fuel ih =>
    intro ds i hdone g
    have hfg : fuel + 1 + g = (fuel + g) + 1 := by omega
    rw [hfg, fromWordAux, fromWordAux]
    by_cases hi : i < ds.length
    · rw [if_pos hi, if_pos hi]
      apply ih
      have hrw : fromWordAux tree word (fuel + 1) ds i
          = fromWordAux tree word fuel (ds ++ expandOne tree word ds i)
              (i + 1) := by
        rw [fromWordAux, if_pos hi]
      rw [hrw] at hdone
      exact hdone
    · rw [if_neg hi, if_neg hi]

@[simp] theorem chainDepthAux_zero (ds : List DeinflectionData) (j : Nat) :
    chainDepthAux ds 0 j = 0 := rfl

theorem chainDepthAux_succ_none {ds : List DeinflectionData} {j : Nat}
    (fuel : Nat) (h : ds[j]? = none) : chainDepthAux ds (fuel + 1) j = 0 := by
  rw [chainDepthAux, h]

theorem chainDepthAux_succ_original {ds : List DeinflectionData} {j : Nat}
    {dd : DeinflectionData} (fuel : Nat) (h : ds[j]? = some dd)
    (hsrc : dd.source = .original) : chainDepthAux ds (fuel + 1) j = 0 := by
  rw [chainDepthAux, h]
  show (match dd.source with
    | DeinflectionSource.original => 0
    | DeinflectionSource.deinflection p => chainDepthAux ds fuel p + 1) = 0
  rw [hsrc]

theorem chainDepthAux_succ_parent {ds : List DeinflectionData} {j : Nat}
    {dd : DeinflectionData} {p : Nat} (fuel : Nat) (h : ds[j]? = some dd)
    (hsrc : dd.source = .deinflection p) :
    chainDepthAux ds (fuel + 1) j = chainDepthAux ds fuel p + 1 := by
  rw [chainDepthAux, h]
  show (match dd.source with
    | DeinflectionSource.original => 0
    | DeinflectionSource.deinflection p => chainDepthAux ds fuel p + 1)
    = chainDepthAux ds fuel p + 1
  rw [hsrc]

/-- With strictly decreasing parent links, the chain-depth count does not
depend on the fuel, as long as it covers the start index. -/
theorem chainDepthAux_fuel (ds : List DeinflectionData)
    (hwf : ∀ (j : Nat) (dd : DeinflectionData), ds[j]? = some dd →
      ∀ p, dd.source = .deinflection p → p < j) :
    ∀ (j : Nat) (fuel fuel' : Nat), j ≤ fuel → j ≤ fuel' →
      chainDepthAux ds fuel j = chainDepthAux ds fuel' j := by
  intro j
  induction j using Nat.strong_induction_on with
  | _ j ih =>
    intro fuel fuel' hf hf'
    cases hj : ds[j]? with
    | none =>
      cases fuel <;> cases fuel' <;>
        simp [chainDepthAux_succ_none, hj]
    | some dd =>
      cases hsrc : dd.source with
      | original =>
        cases fuel <;> cases fuel' <;>
          simp [chainDepthAux_succ_original, hj, hsrc]
      | deinflection p =>
        have hp : p < j := hwf j dd hj p hsrc
        obtain ⟨f, rfl⟩ : ∃ f, fuel = f + 1 := ⟨fuel - 1, by omega⟩
        obtain ⟨f', rfl⟩ : ∃ f, fuel' = f + 1 := ⟨fuel' - 1, by omega⟩
        rw [chainDepthAux_succ_parent f hj hsrc,
          chainDepthAux_succ_parent f' hj hsrc,
          ih p hp f f' (by omega) (by omega)]

/-- Appending candidates does not change the chain depth of existing ones. -/
theorem chainDepthAux_append (ds ext : List DeinflectionData)
    (hwf : ∀ (j : Nat) (dd : DeinflectionData), ds[j]? = some dd →
      ∀ p, dd.source = .deinflection p → p < j) :
    ∀ (j : Nat), j < ds.length → ∀ (fuel : Nat),
      chainDepthAux (ds ++ ext) fuel j = chainDepthAux ds fuel j := by
  intro j
  induction j using Nat.strong_induction_on with
  | _ j ih =>
    intro hjlen fuel
    cases fuel with
    | zero => rfl
    | succ f =>
      have happ : (ds ++ ext)[j]? = ds[j]? :=
        List.getElem?_append_left (by simpa using hjlen)
      cases hj : ds[j]? with
      | none =>
        rw [chainDepthAux_succ_none f (happ.trans hj),
          chainDepthAux_succ_none f hj]
      | some dd =>
        cases hsrc : dd.source with
        | original =>
          rw [chainDepthAux_succ_original f (happ.trans hj) hsrc,
            chainDepthAux_succ_original f hj hsrc]
        | deinflection p =>
          have hp : p < j := hwf j dd hj p hsrc
          rw [chainDepthAux_succ_parent f (happ.trans hj) hsrc,
            chainDepthAux_succ_parent f hj hsrc,
            ih p hp (by omega) f]

/-- Every reachable forest state is well-formed, and chaining depth plus
remaining reconstructed length never exceeds the word's character length. -/
theorem fromWordAux_depth_invariant (tree : Node Char Info) (word : List Char)
    (hdepth : DepthInv tree 0)
    (hout : ∀ info : Info, InTree info tree →
      info.kana_out_chars = info.rule.kana_out.length)
    (hnet : ∀ info : Info, InTree info tree →
      info.kana_out_chars + 1 ≤ info.kana_in_chars) (fuel : Nat) :
    WFForest (fromWordAux tree word fuel [initData] 0).1 ∧
    ∀ (j : Nat) (dd : DeinflectionData),
      (fromWordAux tree word fuel [initData] 0).1[j]? = some dd →
      chainDepth (fromWordAux tree word fuel [initData] 0).1 j
        + candLen word (fromWordAux tree word fuel [initData] 0).1 j
        ≤ word.length := by
  refine fromWordAux_invariant tree word
    (fun ds => WFForest ds ∧
      ∀ (j : Nat) (dd : DeinflectionData), ds[j]? = some dd →
        chainDepth ds j + candLen word ds j ≤ word.length)
    ?_ fuel [initData] 0 ⟨WFForest_init, ?_⟩
  · rintro ds i ⟨hwf, hdb⟩
    have hwfdec : ∀ (j : Nat) (dd : DeinflectionData), ds[j]? = some dd →
        ∀ p, dd.source = .deinflection p → p < j :=
      fun j dd h p hp => (hwf j dd h).2 p hp
    refine ⟨WFForest_step tree word hout hwf i, ?_⟩
    intro j dd hj
    rcases Nat.lt_or_ge j ds.length with hjlt | hjge
    · have hj0 : ds[j]? = some dd := by
        rw [List.getElem?_append_left (by simpa using hjlt)] at hj
        exact hj
      rw [chainDepth, chainDepthAux_append ds _ hwfdec j hjlt j,
        candLen_append word ds _ hwf j dd hj0]
      exact hdb j dd hj0
    · obtain ⟨hsrc, hlt⟩ :=
        expand_child_facts tree word hdepth hout hnet hwf i j dd hjge hj
      have hmem : dd ∈ expandOne tree word ds i := by
        have hj2 := hj
        rw [List.getElem?_append_right hjge] at hj2
        obtain ⟨hlt2, heq⟩ := List.getElem?_eq_some.mp hj2
        exact heq ▸ List.getElem_mem hlt2
      obtain ⟨prev, info, hprev, -, -⟩ := expandOne_mem hmem
      have hilt : i < ds.length := (List.getElem?_eq_some.mp hprev).1
      have hdbi := hdb i prev hprev
      obtain ⟨f, rfl⟩ : ∃ f, j = f + 1 := ⟨j - 1, by omega⟩
      have hwfdec' : ∀ (j : Nat) (dd : DeinflectionData),
          (ds ++ expandOne tree word ds i)[j]? = some dd →
          ∀ p, dd.source = .deinflection p → p < j :=
        fun j dd h p hp => (WFForest_step tree word hout hwf i j dd h).2 p hp
      rw [chainDepth, chainDepthAux_succ_parent f hj hsrc,
        chainDepthAux_fuel _ hwfdec' i f i (by omega) le_rfl,
        chainDepthAux_append ds _ hwfdec i hilt i]
      rw [chainDepth] at hdbi
      omega
  · intro j dd hj
    rcases Nat.lt_or_ge j 1 with hj1 | hj1
    · obtain rfl : j = 0 := by omega
      cases Option.some.inj hj
      have hcl : candLen word [initData] 0 = word.length := by
        rw [candLen, chars_rev_zero word [initData] rfl]
        simp
      rw [hcl, chainDepth]
      simp
    · rw [List.getElem?_eq_none_iff.mpr (by simpa using hj1)] at hj
      cases hj

/-- Tree-level form of the termination argument: on a depth-consistent tree
whose every stored rule has an accurate replacement count and net-consumes
at least one character, `from_word`'s worklist loop terminates. -/
theorem fromWord_terminates_of_tree (tree : Node Char Info) (word : List Char)
    (hdepth : DepthInv tree 0)
    (hout : ∀ info : Info, InTree info tree →
      info.kana_out_chars = info.rule.kana_out.length)
    (hnet : ∀ info : Info, InTree info tree →
      info.kana_out_chars + 1 ≤ info.kana_in_chars) :
    (∃ N : Nat,
      ((fromWordAux tree word N [initData] 0).1.length
        ≤ (fromWordAux tree word N [initData] 0).2) ∧
      (∀ fuel : Nat, N ≤ fuel →
        fromWordAux tree word fuel [initData] 0
          = fromWordAux tree word N [initData] 0)) ∧
    (∀ (fuel j : Nat) (dd : DeinflectionData),
      (fromWord tree fuel word).deinflections[j]? = some dd →
      chainDepth (fromWord tree fuel word).deinflections j ≤ word.length) := by
  constructor
  · refine ⟨potential (totalInfos tree) word [initData] 0, ?_, ?_⟩
    · exact loop_terminates tree word hdepth hout hnet _ [initData] 0
        WFForest_init le_rfl _ le_rfl
    · intro fuel hfuel
      obtain ⟨g, rfl⟩ : ∃ g, fuel
          = potential (totalInfos tree) word [initData] 0 + g :=
        ⟨fuel - potential (totalInfos tree) word [initData] 0, by omega⟩
      exact fromWordAux_done_stable tree word _ [initData] 0
        (loop_terminates tree word hdepth hout hnet _ [initData] 0
          WFForest_init le_rfl _ le_rfl) g
  · intro fuel j dd hj
    have h := (fromWordAux_depth_invariant tree word hdepth hout hnet fuel).2
      j dd hj
    show chainDepth (fromWordAux tree word fuel [initData] 0).1 j ≤ word.length
    omega

/-- C7: for every rule table authored so that each entry net-consumes at
least one character of logical tail (`kana_out_chars + 1 ≤ kana_in_chars`)
and stores accurate counts (`kana_in_chars` equals the inserted
reversed-suffix path length and `kana_out_chars` the replacement length,
exactly as `LOOKUP_TREE`'s builder records them), `from_word` over the tree
built from that table terminates on every input word: some fuel `N` lets
the loop counter catch up with the candidate list, every larger fuel
returns the identical final state (the list stops growing), and every
candidate's chaining depth is bounded by the word's character length. -/
theorem c7_from_word_terminates (rules : List (List Char × Info))
    (word : List Char)
    (hcount : ∀ pt ∈ rules, pt.2.kana_in_chars = pt.1.length)
    (hout : ∀ pt ∈ rules, pt.2.kana_out_chars = pt.2.rule.kana_out.length)
    (hnet : ∀ pt ∈ rules, pt.2.kana_out_chars + 1 ≤ pt.2.kana_in_chars) :
    (∃ N : Nat,
      ((fromWordAux (buildTree rules) word N [initData] 0).1.length
        ≤ (fromWordAux (buildTree rules) word N [initData] 0).2) ∧
      (∀ fuel : Nat, N ≤ fuel →
        fromWordAux (buildTree rules) word fuel [initData] 0
          = fromWordAux (buildTree rules) word N [initData] 0)) ∧
    (∀ (fuel j : Nat) (dd : DeinflectionData),
      (fromWord (buildTree rules) fuel word).deinflections[j]? = some dd →
      chainDepth (fromWord (buildTree rules) fuel word).deinflections j
        ≤ word.length) := by
  have hout' : ∀ info : Info, InTree info (buildTree rules) →
      info.kana_out_chars = info.rule.kana_out.length := by
    intro info h
    obtain ⟨pt, hpt, rfl⟩ := InTree_buildTree rules info h
    exact hout pt hpt
  have hnet' : ∀ info : Info, InTree info (buildTree rules) →
      info.kana_out_chars + 1 ≤ info.kana_in_chars := by
    intro info h
    obtain ⟨pt, hpt, rfl⟩ := InTree_buildTree rules info h
    exact hnet pt hpt
  exact fromWord_terminates_of_tree (buildTree rules) word
    (DepthInv_buildTree rules hcount) hout' hnet'

/-- Witness for C7: the one-rule net-consuming table `tableC7` on the word
`"abc"`; the three authoring hypotheses hold of the concrete table by
evaluation. -/
theorem c7_witness :
    (∃ N : Nat,
      ((fromWordAux (buildTree tableC7) ['a', 'b', 'c'] N [initData] 0).1.length
        ≤ (fromWordAux (buildTree tableC7) ['a', 'b', 'c'] N [initData] 0).2) ∧
      (∀ fuel : Nat, N ≤ fuel →
        fromWordAux (buildTree tableC7) ['a', 'b', 'c'] fuel [initData] 0
          = fromWordAux (buildTree tableC7) ['a', 'b', 'c'] N [initData] 0)) ∧
    (∀ (fuel j : Nat) (dd : DeinflectionData),
      (fromWord (buildTree tableC7) fuel ['a', 'b', 'c']).deinflections[j]?
          = some dd →
      chainDepth (fromWord (buildTree tableC7) fuel ['a', 'b', 'c']).deinflections j
        ≤ (['a', 'b', 'c'] : List Char).length) :=
  c7_from_word_terminates tableC7 ['a', 'b', 'c']
    (by decide) (by decide) (by decide)

end Deinflect
